import Mathlib

/-!
Verification of the structural-analysis engine in
`init_team/template/skills/{analyze_existing_project,architecture_validator,complexity_analyzer}.py`.

The Python code is shallowly embedded: module names are `String`s, the
dependency graph `Dict[str, Set[str]]` becomes an association list
`List (String × List String)` (a Python `set` is a finite set whose iteration
order is an artifact of the runtime; it is embedded as a duplicate-free list
whose order is universally quantified or fixed by insertion, exactly as the
proofs require), and the recursive/looping procedures are embedded with
explicit fuel that is proved sufficient.
-/

namespace SkillsWorkshop

/-- A dependency graph: module name ↦ list of modules it depends on.
Mirrors `self.graph : Dict[str, Set[str]]` of `analyze_existing_project.py`. -/
abbrev Graph := List (String × List String)

/-- The key (module) set of the graph, in `dict` insertion order. -/
def keysOf (g : Graph) : List String := g.map Prod.fst

/-- `self.graph.get(node, [])`: the dependency list of `node`, `[]` if absent. -/
def neighbors (g : Graph) (v : String) : List String :=
  ((g.find? (fun p => p.1 = v)).map Prod.snd).getD []

/-- Every edge target of the graph is itself a key of the graph
(the invariant the builder establishes, see `extractModuleDependencies`). -/
def ClosedGraph (g : Graph) : Prop :=
  ∀ p ∈ g, ∀ w ∈ p.2, w ∈ keysOf g

instance (g : Graph) : Decidable (ClosedGraph g) := by
  unfold ClosedGraph; infer_instance

lemma neighbors_sub_keys {g : Graph} (h : ClosedGraph g) (v : String) :
    ∀ w ∈ neighbors g v, w ∈ keysOf g := by
  intro w hw
  unfold neighbors at hw
  cases hfind : g.find? (fun p => p.1 = v) with
  | none => simp [hfind] at hw
  | some p =>
    simp [hfind] at hw
    exact h p (List.mem_of_find?_eq_some hfind) w hw

/-! ## Dependency builder (`DependencyAnalyzer._extract_module_dependencies`)

A source file is embedded as the list of import statements its AST contains
(`ast.walk` over a parsed file; files that fail to parse are simply absent).
`from X import Y` keeps the dotted module `X` (absent for `from . import Y`),
`import X, Z` keeps every dotted alias name. -/

/-- One import statement of a parsed Python file. -/
inductive ImpStmt where
  /-- `from M import ...` — `M` is `None` for a purely relative import. -/
  | importFrom (module : Option String)
  /-- `import a.b, c` — the list of dotted alias names. -/
  | importNames (names : List String)
deriving DecidableEq, Repr

/-- A parsed source file: the import statements found by walking its AST. -/
abbrev PyFile := List ImpStmt

/-- `dotted.split('.')[0]` — the leading identifier of a dotted module name:
the characters before the first `'.'` (the whole string if it has none). -/
def leadingIdent (dotted : String) : String :=
  ⟨dotted.data.takeWhile (fun c => c ≠ '.')⟩

/-- The module references one import statement contributes
(`node.module` for `ImportFrom`, every `alias.name` for `Import`). -/
def stmtRefs : ImpStmt → List String
  | .importFrom none => []
  | .importFrom (some m) => [leadingIdent m]
  | .importNames names => names.map leadingIdent

/-- `dependencies.add(dep)` on a Python set embedded as a duplicate-free list:
append the element if it is not already present. -/
def setAdd (s : List String) (x : String) : List String :=
  if x ∈ s then s else s ++ [x]

/-- `DependencyAnalyzer._extract_module_dependencies`: scan every file of the
module, and record each referenced leading identifier that is a known module
other than the module itself. -/
def extractModuleDependencies (mods : List String) (selfName : String)
    (files : List PyFile) : List String :=
  files.foldl (fun acc f =>
    (f.flatMap stmtRefs).foldl (fun acc dep =>
      if dep ∈ mods ∧ dep ≠ selfName then setAdd acc dep else acc) acc) []

/-- `DependencyAnalyzer.analyze`: one graph entry per module. -/
def buildGraph (mods : List String) (files : String → List PyFile) : Graph :=
  mods.map (fun m => (m, extractModuleDependencies mods m (files m)))

lemma setAdd_mem {s : List String} {x y : String} :
    y ∈ setAdd s x ↔ y ∈ s ∨ y = x := by
  unfold setAdd
  by_cases hx : x ∈ s
  · simp only [if_pos hx]
    constructor
    · exact Or.inl
    · rintro (h | rfl)
      · exact h
      · exact hx
  · simp [if_neg hx]

lemma setAdd_nodup {s : List String} {x : String} (h : s.Nodup) :
    (setAdd s x).Nodup := by
  unfold setAdd
  by_cases hx : x ∈ s
  · simpa [hx]
  · simp [hx, List.nodup_append, h]

/-- Membership in the accumulated dependency set of the inner statement loop. -/
lemma extract_inner_mem (mods : List String) (selfName : String)
    (refs : List String) (acc : List String) (d : String) :
    d ∈ refs.foldl (fun acc dep =>
        if dep ∈ mods ∧ dep ≠ selfName then setAdd acc dep else acc) acc ↔
      d ∈ acc ∨ (d ∈ refs ∧ d ∈ mods ∧ d ≠ selfName) := by
  induction refs generalizing acc with
  | nil => simp
  | cons r rs ih =>
    simp only [List.foldl_cons]
    by_cases hr : r ∈ mods ∧ r ≠ selfName
    · rw [if_pos hr, ih]
      constructor
      · rintro (hd | hd)
        · rw [setAdd_mem] at hd
          rcases hd with hd | rfl
          · exact Or.inl hd
          · exact Or.inr ⟨List.mem_cons_self _ _, hr⟩
        · exact Or.inr ⟨List.mem_cons_of_mem _ hd.1, hd.2⟩
      · rintro (hd | ⟨hdr, hdm⟩)
        · exact Or.inl (setAdd_mem.mpr (Or.inl hd))
        · rcases List.mem_cons.mp hdr with rfl | hdr
          · exact Or.inl (setAdd_mem.mpr (Or.inr rfl))
          · exact Or.inr ⟨hdr, hdm⟩
    · rw [if_neg hr, ih]
      constructor
      · rintro (hd | hd)
        · exact Or.inl hd
        · exact Or.inr ⟨List.mem_cons_of_mem _ hd.1, hd.2⟩
      · rintro (hd | ⟨hdr, hdm⟩)
        · exact Or.inl hd
        · rcases List.mem_cons.mp hdr with rfl | hdr
          · exact absurd hdm hr
          · exact Or.inr ⟨hdr, hdm⟩

lemma extract_inner_nodup (mods : List String) (selfName : String)
    (refs : List String) (acc : List String) (h : acc.Nodup) :
    (refs.foldl (fun acc dep =>
        if dep ∈ mods ∧ dep ≠ selfName then setAdd acc dep else acc) acc).Nodup := by
  induction refs generalizing acc with
  | nil => simpa
  | cons r rs ih =>
    simp only [List.foldl_cons]
    by_cases hr : r ∈ mods ∧ r ≠ selfName
    · rw [if_pos hr]; exact ih _ (setAdd_nodup h)
    · rw [if_neg hr]; exact ih _ h

/-- The extracted dependency set: membership characterization. -/
lemma extract_mem (mods : List String) (selfName : String)
    (files : List PyFile) (d : String) :
    d ∈ extractModuleDependencies mods selfName files ↔
      (∃ f ∈ files, ∃ st ∈ f, d ∈ stmtRefs st) ∧ d ∈ mods ∧ d ≠ selfName := by
  unfold extractModuleDependencies
  suffices h : ∀ acc, d ∈ files.foldl (fun acc f =>
      (f.flatMap stmtRefs).foldl (fun acc dep =>
        if dep ∈ mods ∧ dep ≠ selfName then setAdd acc dep else acc) acc) acc ↔
      d ∈ acc ∨ ((∃ f ∈ files, ∃ st ∈ f, d ∈ stmtRefs st) ∧ d ∈ mods ∧ d ≠ selfName) by
    rw [h []]; simp
  intro acc
  induction files generalizing acc with
  | nil => simp
  | cons f fs ih =>
    simp only [List.foldl_cons]
    rw [ih, extract_inner_mem]
    constructor
    · rintro ((hd | ⟨hdf, hdm⟩) | ⟨⟨f', hf', hst⟩, hdm⟩)
      · exact Or.inl hd
      · rcases List.mem_flatMap.mp hdf with ⟨st, hst, hd⟩
        exact Or.inr ⟨⟨f, List.mem_cons_self _ _, st, hst, hd⟩, hdm⟩
      · exact Or.inr ⟨⟨f', List.mem_cons_of_mem _ hf', hst⟩, hdm⟩
    · rintro (hd | ⟨⟨f', hf', st, hst, hd⟩, hdm⟩)
      · exact Or.inl (Or.inl hd)
      · rcases List.mem_cons.mp hf' with rfl | hf'
        · exact Or.inl (Or.inr ⟨List.mem_flatMap.mpr ⟨st, hst, hd⟩, hdm⟩)
        · exact Or.inr ⟨⟨f', hf', st, hst, hd⟩, hdm⟩

lemma extract_nodup (mods : List String) (selfName : String) (files : List PyFile) :
    (extractModuleDependencies mods selfName files).Nodup := by
  unfold extractModuleDependencies
  suffices h : ∀ acc : List String, acc.Nodup → (files.foldl (fun acc f =>
      (f.flatMap stmtRefs).foldl (fun acc dep =>
        if dep ∈ mods ∧ dep ≠ selfName then setAdd acc dep else acc) acc) acc).Nodup by
    exact h [] List.nodup_nil
  intro acc hacc
  induction files generalizing acc with
  | nil => simpa
  | cons f fs ih =>
    simp only [List.foldl_cons]
    exact ih _ (extract_inner_nodup _ _ _ _ hacc)

/-- C2: every graph produced by the dependency builder has no self-loop and
every edge target is a known module (references to unknown modules are
dropped, not errors). -/
theorem builder_no_self_loops_and_closed (mods : List String)
    (files : String → List PyFile) :
    ∀ p ∈ buildGraph mods files, ∀ d ∈ p.2, d ≠ p.1 ∧ d ∈ keysOf (buildGraph mods files) := by
  intro p hp d hd
  unfold buildGraph at hp
  rcases List.mem_map.mp hp with ⟨m, hm, rfl⟩
  rcases (extract_mem mods m (files m) d).mp hd with ⟨-, hdm, hdne⟩
  refine ⟨hdne, ?_⟩
  unfold keysOf buildGraph
  rw [List.map_map]
  simpa using hdm

/-- Witness: with modules `a, b` and `a` importing `b.sub`, the resulting
edge `a → b` is not a self-loop and its target is a known module. -/
theorem builder_no_self_loops_and_closed_witness :
    ("b" : String) ≠ "a" ∧
    "b" ∈ keysOf (buildGraph ["a", "b"]
      (fun m => if m = "a" then [[ImpStmt.importFrom (some "b.sub")]] else [])) :=
  builder_no_self_loops_and_closed ["a", "b"]
    (fun m => if m = "a" then [[ImpStmt.importFrom (some "b.sub")]] else [])
    ("a", ["b"]) (by decide) "b" (by decide)

/-! ## God-module detector (`GodModuleDetector.detect`)

`in_degrees[dep] += 1` over every dependency of every entry; a module is
flagged when its in-degree exceeds `total_modules * threshold`.  The Python
threshold is the float literal `0.3`; for every module count `N` below `2^49`
the rounded product `N * 0.3` is exactly the rational `3N/10` (the relative
error of the double nearest `0.3` is below half an ulp), so the comparison is
embedded with exact rational arithmetic. -/

/-- The in-degree of `m`: one increment per occurrence of `m` in a dependency
list (dependency lists are Python sets, hence duplicate-free). -/
def inDegree (g : Graph) (m : String) : Nat :=
  (g.map (fun p => p.2.count m)).sum

/-- The keys of `in_degrees` in insertion order: every module that occurs as a
dependency target, first occurrence first. -/
def depTargets (g : Graph) : List String :=
  (g.flatMap Prod.snd).foldl setAdd []

/-- `GodModuleDetector.detect`: the names of the flagged modules, in the
iteration order of `in_degrees.items()`. -/
def godModules (g : Graph) (t : ℚ) : List String :=
  (depTargets g).filter (fun m => ((inDegree g m : ℚ) > t * g.length : Bool))

lemma foldl_setAdd_mem (l acc : List String) (x : String) :
    x ∈ l.foldl setAdd acc ↔ x ∈ acc ∨ x ∈ l := by
  induction l generalizing acc with
  | nil => simp
  | cons a as ih =>
    simp only [List.foldl_cons]
    rw [ih, setAdd_mem]
    constructor
    · rintro ((h | rfl) | h)
      · exact Or.inl h
      · exact Or.inr (List.mem_cons_self _ _)
      · exact Or.inr (List.mem_cons_of_mem _ h)
    · rintro (h | h)
      · exact Or.inl (Or.inl h)
      · rcases List.mem_cons.mp h with rfl | h
        · exact Or.inl (Or.inr rfl)
        · exact Or.inr h

lemma mem_depTargets (g : Graph) (m : String) :
    m ∈ depTargets g ↔ ∃ p ∈ g, m ∈ p.2 := by
  unfold depTargets
  rw [foldl_setAdd_mem]
  simp [List.mem_flatMap]

lemma inDegree_pos_iff (g : Graph) (m : String) :
    0 < inDegree g m ↔ ∃ p ∈ g, m ∈ p.2 := by
  unfold inDegree
  induction g with
  | nil => simp
  | cons p ps ih =>
    simp only [List.map_cons, List.sum_cons]
    have hsplit : ∀ x y : Nat, 0 < x + y ↔ 0 < x ∨ 0 < y := by intro x y; omega
    rw [hsplit, ih, List.count_pos_iff]
    constructor
    · rintro (h | ⟨q, hq, hm⟩)
      · exact ⟨p, List.mem_cons_self _ _, h⟩
      · exact ⟨q, List.mem_cons_of_mem _ hq, hm⟩
    · rintro ⟨q, hq, hm⟩
      rcases List.mem_cons.mp hq with rfl | hq
      · exact Or.inl hm
      · exact Or.inr ⟨q, hq, hm⟩

/-- With duplicate-free dependency lists, the in-degree of `m` is the number
of graph entries whose dependency list contains `m`. -/
lemma inDegree_eq_filter_length (g : Graph) (m : String)
    (hnd : ∀ p ∈ g, p.2.Nodup) :
    inDegree g m = (g.filter (fun p => decide (m ∈ p.2))).length := by
  unfold inDegree
  induction g with
  | nil => simp
  | cons p ps ih =>
    simp only [List.map_cons, List.sum_cons, List.filter_cons]
    have hp : p.2.Nodup := hnd p (List.mem_cons_self _ _)
    have ihp := ih (fun q hq => hnd q (List.mem_cons_of_mem _ hq))
    by_cases hm : m ∈ p.2
    · have h1 : p.2.count m = 1 := List.count_eq_one_of_mem hp hm
      simp [hm, h1, ihp, Nat.add_comm]
    · have h0 : p.2.count m = 0 := List.count_eq_zero.mpr hm
      simp [hm, h0, ihp]

lemma rat_threshold_iff (a N : Nat) :
    ((a : ℚ) > 3/10 * N) ↔ 10 * a > 3 * N := by
  rw [gt_iff_lt, gt_iff_lt, div_mul_eq_mul_div, div_lt_iff₀ (by norm_num : (0:ℚ) < 10)]
  have h10 : ((a:ℚ) * 10) = ((10 * a : Nat) : ℚ) := by push_cast; ring
  have h3 : ((3:ℚ) * N) = ((3 * N : Nat) : ℚ) := by push_cast; ring
  rw [h10, h3, Nat.cast_lt]

lemma mem_godModules_iff (g : Graph) (m : String) :
    m ∈ godModules g (3/10) ↔ 10 * inDegree g m > 3 * g.length := by
  unfold godModules
  rw [List.mem_filter]
  constructor
  · rintro ⟨-, h⟩
    simpa [rat_threshold_iff] using h
  · intro h
    have hpos : 0 < inDegree g m := by omega
    refine ⟨(mem_depTargets g m).mpr ((inDegree_pos_iff g m).mp hpos), ?_⟩
    simpa [rat_threshold_iff] using h

/-- C3: with the default threshold `0.30` and total module count `N`, a module
is flagged iff its in-degree (the number of distinct modules depending on it)
exceeds `0.30 × N`; a module with fan-in `⌊0.30 N⌋` is not flagged, one with
fan-in `⌊0.30 N⌋ + 1` is. -/
theorem god_module_threshold (g : Graph) (m : String)
    (hnd : ∀ p ∈ g, p.2.Nodup) :
    (m ∈ godModules g (3/10) ↔ ((inDegree g m : ℚ) > 3/10 * g.length)) ∧
    inDegree g m = (g.filter (fun p => decide (m ∈ p.2))).length ∧
    (inDegree g m = 3 * g.length / 10 → m ∉ godModules g (3/10)) ∧
    (inDegree g m = 3 * g.length / 10 + 1 → m ∈ godModules g (3/10)) := by
  refine ⟨?_, inDegree_eq_filter_length g m hnd, ?_, ?_⟩
  · rw [mem_godModules_iff, rat_threshold_iff]
  · intro hdeg
    rw [mem_godModules_iff, hdeg]
    omega
  · intro hdeg
    rw [mem_godModules_iff, hdeg]
    omega

/-- Witness: in a six-module graph where `c` is depended on by `a` and `b`,
`⌊0.3·6⌋ = 1 < 2`, so `c` is flagged; the boundary clauses instantiate. -/
theorem god_module_threshold_witness :
    ("c" ∈ godModules [("a", ["c"]), ("b", ["c"]), ("c", []), ("d", []),
        ("e", []), ("f", [])] (3/10) ↔
      ((inDegree [("a", ["c"]), ("b", ["c"]), ("c", []), ("d", []),
        ("e", []), ("f", [])] "c" : ℚ) > 3/10 * 6)) ∧
    inDegree [("a", ["c"]), ("b", ["c"]), ("c", []), ("d", []),
        ("e", []), ("f", [])] "c" = 2 := by
  have h := god_module_threshold
    [("a", ["c"]), ("b", ["c"]), ("c", []), ("d", []), ("e", []), ("f", [])]
    "c" (by decide)
  exact ⟨h.1, by rw [h.2.1]; decide⟩

/-! ## Architecture validator (`architecture_validator.py`)

Layers come from `.vibekit.yaml` as `{name, level, patterns}` and are sorted
by descending level (Python's stable `list.sort(..., reverse=True)`, embedded
as a stable descending insertion sort).  The Python string primitives used by
`_match_pattern` (`==`, `in`, `startswith`, `endswith`, `replace`) are
embedded character-listwise so that every definition evaluates inside the
kernel. -/

/-- An architecture layer as declared in the configuration. -/
structure Layer where
  name : String
  level : Int
  patterns : List String
deriving DecidableEq, Repr

/-- The `{name, level}` information `_map_modules_to_layers` stores per module
(the report-only `description` field is omitted). -/
structure LayerInfo where
  name : String
  level : Int
deriving DecidableEq, Repr

/-- An architecture violation.  The constant `severity: "P0"` field and the
display-only `direction` string of the Python dicts are omitted. -/
inductive Violation where
  | skipLayer (fromModule fromLayer : String) (fromLevel : Int)
      (toModule toLayer : String) (toLevel : Int)
      (layerDiff : Int) (skippedLayers : List String)
  | reverseDep (fromModule fromLayer : String) (fromLevel : Int)
      (toModule toLayer : String) (toLevel : Int)
deriving DecidableEq, Repr

/-- Python `needle in hay` (substring containment) on character lists. -/
def infixOccurs (s pat : List Char) : Bool :=
  pat.isPrefixOf s ||
    match s with
    | [] => false
    | _ :: rest => infixOccurs rest pat

/-- Python `s.replace(pat, rep)`: replace every non-overlapping occurrence,
left to right (`pat = []` returns `s` unchanged; the patterns replaced by
`_match_pattern` are never empty). -/
def replaceAll (s pat rep : List Char) : List Char :=
  match pat with
  | [] => s
  | p :: ps =>
    match s with
    | [] => []
    | c :: rest =>
      if (p :: ps).isPrefixOf (c :: rest) then
        rep ++ replaceAll (List.drop (p :: ps).length (c :: rest)) (p :: ps) rep
      else c :: replaceAll rest (p :: ps) rep
termination_by s.length
decreasing_by
  · simp only [List.length_drop, List.length_cons]
    omega
  · simp

/-- Python `s in t` on strings. -/
def strContains (hay needle : String) : Bool := infixOccurs hay.data needle.data

/-- Python `s.startswith(p)`. -/
def strStarts (s p : String) : Bool := p.data.isPrefixOf s.data

/-- Python `s.endswith(p)`. -/
def strEnds (s p : String) : Bool := p.data.isSuffixOf s.data

/-- Python `s.replace(pat, rep)` on strings. -/
def strReplace (s pat rep : String) : String := ⟨replaceAll s.data pat.data rep.data⟩

/-- `ArchitectureConfig._match_pattern`: exact name match, `x/**` prefix
match, `**/x/**` containment match, `**/x` suffix match. -/
def matchPattern (moduleName modulePath pat : String) : Bool :=
  if pat = moduleName then true
  else if strContains pat "**" && strStarts modulePath (strReplace pat "/**" "") then true
  else if strStarts pat "**/" && strEnds pat "/**" &&
      strContains modulePath (strReplace (strReplace pat "**/" "") "/**" "") then true
  else if strStarts pat "**/" && strEnds modulePath (strReplace pat "**/" "") then true
  else false

/-- Stable insertion of a layer into a descending-by-level list: an incoming
layer goes after existing layers of strictly greater level and before existing
layers of equal level, which is exactly where Python's stable
`sort(key=level, reverse=True)` puts it. -/
def insertLayerDesc (x : Layer) : List Layer → List Layer
  | [] => [x]
  | y :: ys => if y.level ≤ x.level then x :: y :: ys else y :: insertLayerDesc x ys

/-- `self.layers.sort(key=lambda x: x.get('level', 0), reverse=True)`. -/
def sortLayersDesc : List Layer → List Layer
  | [] => []
  | x :: xs => insertLayerDesc x (sortLayersDesc xs)

/-- `ArchitectureConfig.get_layer_by_module`: first layer (in sorted order)
one of whose patterns matches the module name or path. -/
def getLayerByModule (layers : List Layer) (name path : String) : Option Layer :=
  layers.find? (fun l => l.patterns.any (fun pat => matchPattern name path pat))

/-- Python `dict[k] = v`: replace in place if the key exists, else append. -/
def dictUpsert (m2l : List (String × LayerInfo)) (k : String) (v : LayerInfo) :
    List (String × LayerInfo) :=
  if m2l.any (fun q => q.1 = k) then
    m2l.map (fun q => if q.1 = k then (k, v) else q)
  else m2l ++ [(k, v)]

/-- `ArchitectureValidator._map_modules_to_layers` over `(name, path)` pairs. -/
def mapModulesToLayers (layers : List Layer) (modules : List (String × String)) :
    List (String × LayerInfo) :=
  modules.foldl (fun m2l mp =>
    match getLayerByModule layers mp.1 mp.2 with
    | some l => dictUpsert m2l mp.1 ⟨l.name, l.level⟩
    | none => m2l) []

/-- `self.module_to_layer.get(m)`. -/
def lookupLayer (m2l : List (String × LayerInfo)) (m : String) : Option LayerInfo :=
  (m2l.find? (fun q => q.1 = m)).map Prod.snd

/-- `ArchitectureValidator._get_skipped_layers`: every configured layer with a
level strictly between `to_level` and `from_level`, in configured (sorted)
order. -/
def getSkippedLayers (layers : List Layer) (fromLevel toLevel : Int) : List String :=
  (layers.filter (fun l => toLevel < l.level ∧ l.level < fromLevel)).map Layer.name

/-- The `skip_layer` violations contributed by the edges out of one module. -/
def skipViolationsOf (m2l : List (String × LayerInfo)) (layers : List Layer)
    (src : String) (deps : List String) : List Violation :=
  match lookupLayer m2l src with
  | none => []
  | some ml => deps.filterMap (fun dep =>
      match lookupLayer m2l dep with
      | none => none
      | some dl =>
        if ml.level - dl.level > 1 then
          some (.skipLayer src ml.name ml.level dep dl.name dl.level
            (ml.level - dl.level) (getSkippedLayers layers ml.level dl.level))
        else none)

/-- `ArchitectureValidator._detect_skip_layer`. -/
def detectSkipLayer (m2l : List (String × LayerInfo)) (layers : List Layer)
    (g : Graph) : List Violation :=
  g.flatMap (fun p => skipViolationsOf m2l layers p.1 p.2)

/-- The `reverse_dependency` violations contributed by the edges out of one
module. -/
def reverseViolationsOf (m2l : List (String × LayerInfo))
    (src : String) (deps : List String) : List Violation :=
  match lookupLayer m2l src with
  | none => []
  | some ml => deps.filterMap (fun dep =>
      match lookupLayer m2l dep with
      | none => none
      | some dl =>
        if dl.level > ml.level then
          some (.reverseDep src ml.name ml.level dep dl.name dl.level)
        else none)

/-- `ArchitectureValidator._detect_reverse_dependency`. -/
def detectReverseDependency (m2l : List (String × LayerInfo)) (g : Graph) :
    List Violation :=
  g.flatMap (fun p => reverseViolationsOf m2l p.1 p.2)

/-- `ArchitectureValidator.validate`: no layers configured or no module mapped
to a layer yields no violations; otherwise the skip-layer violations followed
by the reverse-dependency violations. -/
def validate (cfgLayers : List Layer) (g : Graph) (modules : List (String × String)) :
    List Violation :=
  let layers := sortLayersDesc cfgLayers
  if layers.isEmpty then []
  else
    let m2l := mapModulesToLayers layers modules
    if m2l.isEmpty then []
    else detectSkipLayer m2l layers g ++ detectReverseDependency m2l g

lemma mem_skipViolationsOf (m2l : List (String × LayerInfo)) (layers : List Layer)
    (src : String) (deps : List String) (v : Violation) :
    v ∈ skipViolationsOf m2l layers src deps ↔
      ∃ ml dl, lookupLayer m2l src = some ml ∧
        ∃ dep ∈ deps, lookupLayer m2l dep = some dl ∧ ml.level - dl.level > 1 ∧
          v = .skipLayer src ml.name ml.level dep dl.name dl.level
            (ml.level - dl.level) (getSkippedLayers layers ml.level dl.level) := by
  unfold skipViolationsOf
  cases hsrc : lookupLayer m2l src with
  | none => simp [hsrc]
  | some ml =>
    simp only [List.mem_filterMap]
    constructor
    · rintro ⟨dep, hdep, hv⟩
      cases hdl : lookupLayer m2l dep with
      | none => simp [hdl] at hv
      | some dl =>
        simp only [hdl] at hv
        by_cases hgt : ml.level - dl.level > 1
        · rw [if_pos hgt] at hv
          exact ⟨ml, dl, rfl, dep, hdep, hdl, hgt, (Option.some_inj.mp hv).symm⟩
        · rw [if_neg hgt] at hv; exact absurd hv (by simp)
    · rintro ⟨ml', dl, hml', dep, hdep, hdl, hgt, rfl⟩
      cases Option.some_inj.mp hml'
      exact ⟨dep, hdep, by simp only [hdl]; rw [if_pos hgt]⟩

lemma mem_reverseViolationsOf (m2l : List (String × LayerInfo))
    (src : String) (deps : List String) (v : Violation) :
    v ∈ reverseViolationsOf m2l src deps ↔
      ∃ ml dl, lookupLayer m2l src = some ml ∧
        ∃ dep ∈ deps, lookupLayer m2l dep = some dl ∧ dl.level > ml.level ∧
          v = .reverseDep src ml.name ml.level dep dl.name dl.level := by
  unfold reverseViolationsOf
  cases hsrc : lookupLayer m2l src with
  | none => simp [hsrc]
  | some ml =>
    simp only [List.mem_filterMap]
    constructor
    · rintro ⟨dep, hdep, hv⟩
      cases hdl : lookupLayer m2l dep with
      | none => simp [hdl] at hv
      | some dl =>
        simp only [hdl] at hv
        by_cases hgt : dl.level > ml.level
        · rw [if_pos hgt] at hv
          exact ⟨ml, dl, rfl, dep, hdep, hdl, hgt, (Option.some_inj.mp hv).symm⟩
        · rw [if_neg hgt] at hv; exact absurd hv (by simp)
    · rintro ⟨ml', dl, hml', dep, hdep, hdl, hgt, rfl⟩
      cases Option.some_inj.mp hml'
      exact ⟨dep, hdep, by simp only [hdl]; rw [if_pos hgt]⟩

/-- C4: a graph edge `(from, to)` with both endpoints classified yields a
`skip_layer` violation exactly when `level(from) − level(to) > 1` and a
`reverse_dependency` violation exactly when `level(to) > level(from)`; the two
trigger conditions are mutually exclusive, so a single edge produces at most
one of the two violation kinds. -/
theorem arch_violations_per_edge (m2l : List (String × LayerInfo))
    (layers : List Layer) (g : Graph) (v : Violation) :
    (v ∈ detectSkipLayer m2l layers g ↔
      ∃ p ∈ g, ∃ ml dl, lookupLayer m2l p.1 = some ml ∧
        ∃ dep ∈ p.2, lookupLayer m2l dep = some dl ∧ ml.level - dl.level > 1 ∧
          v = .skipLayer p.1 ml.name ml.level dep dl.name dl.level
            (ml.level - dl.level) (getSkippedLayers layers ml.level dl.level)) ∧
    (v ∈ detectReverseDependency m2l g ↔
      ∃ p ∈ g, ∃ ml dl, lookupLayer m2l p.1 = some ml ∧
        ∃ dep ∈ p.2, lookupLayer m2l dep = some dl ∧ dl.level > ml.level ∧
          v = .reverseDep p.1 ml.name ml.level dep dl.name dl.level) ∧
    (∀ ml dl : LayerInfo,
      (ml.level - dl.level > 1 ∧ dl.level > ml.level) ↔ False) := by
  refine ⟨?_, ?_, ?_⟩
  · unfold detectSkipLayer
    rw [List.mem_flatMap]
    constructor
    · rintro ⟨p, hp, hv⟩
      rcases (mem_skipViolationsOf _ _ _ _ _).mp hv with ⟨ml, dl, h1, dep, h2, h3, h4, h5⟩
      exact ⟨p, hp, ml, dl, h1, dep, h2, h3, h4, h5⟩
    · rintro ⟨p, hp, ml, dl, h1, dep, h2, h3, h4, h5⟩
      exact ⟨p, hp, (mem_skipViolationsOf _ _ _ _ _).mpr ⟨ml, dl, h1, dep, h2, h3, h4, h5⟩⟩
  · unfold detectReverseDependency
    rw [List.mem_flatMap]
    constructor
    · rintro ⟨p, hp, hv⟩
      rcases (mem_reverseViolationsOf _ _ _ _).mp hv with ⟨ml, dl, h1, dep, h2, h3, h4, h5⟩
      exact ⟨p, hp, ml, dl, h1, dep, h2, h3, h4, h5⟩
    · rintro ⟨p, hp, ml, dl, h1, dep, h2, h3, h4, h5⟩
      exact ⟨p, hp, (mem_reverseViolationsOf _ _ _ _).mpr ⟨ml, dl, h1, dep, h2, h3, h4, h5⟩⟩
  · intro ml dl
    constructor
    · rintro ⟨h1, h2⟩; omega
    · exact False.elim

/-- C5: the "skipped layers" of a skip_layer violation are exactly the
configured layers with level strictly between `level(to)` and `level(from)`;
with layers API(4) > Service(3) > Repository(2) > Database(1), an edge
API→Database yields a skip_layer violation with skipped = [Service,
Repository] and an edge Database→API yields a reverse_dependency violation. -/
theorem skipped_layers_strictly_between :
    (∀ (layers : List Layer) (fromLevel toLevel : Int) (nm : String),
      nm ∈ getSkippedLayers layers fromLevel toLevel ↔
        ∃ l ∈ layers, toLevel < l.level ∧ l.level < fromLevel ∧ l.name = nm) ∧
    validate
        [⟨"api", 4, ["api"]⟩, ⟨"service", 3, ["service"]⟩,
         ⟨"repository", 2, ["repository"]⟩, ⟨"database", 1, ["database"]⟩]
        [("api", ["database"]), ("database", ["api"])]
        [("api", "api"), ("database", "database")] =
      [.skipLayer "api" "api" 4 "database" "database" 1 3 ["service", "repository"],
       .reverseDep "database" "database" 1 "api" "api" 4] := by
  constructor
  · intro layers fromLevel toLevel nm
    unfold getSkippedLayers
    simp only [List.mem_map, List.mem_filter, decide_eq_true_eq]
    constructor
    · rintro ⟨l, ⟨hl, h1, h2⟩, rfl⟩
      exact ⟨l, hl, h1, h2, rfl⟩
    · rintro ⟨l, hl, h1, h2, rfl⟩
      exact ⟨l, ⟨hl, h1, h2⟩, rfl⟩
  · decide

/-! ## Complexity analyzer (`complexity_analyzer.py`)

A Python AST node is embedded as a kind plus its list of child nodes; only
the kinds `_calculate_complexity` inspects are distinguished, everything else
is `other`.  `ast.walk` yields the node itself and all of its descendants
(including the bodies of nested `FunctionDef`s); only the multiset of visited
nodes matters to the analyzer, so the embedded walk is depth-first. -/

/-- The AST node kinds distinguished by `_calculate_complexity`. -/
inductive NodeKind where
  | ifStmt
  | forStmt
  | whileStmt
  | exceptHandler
  /-- `ast.BoolOp` with `len(child.values) = operands`. -/
  | boolOp (operands : Nat)
  | listComp
  | dictComp
  | setComp
  | generatorExp
  | assertStmt
  | functionDef
  | other
deriving DecidableEq, Repr

/-- A Python AST node: a kind and its children. -/
inductive PyNode where
  | node (kind : NodeKind) (children : List PyNode)

mutual
/-- `ast.walk(n)`: `n` together with all of its descendants. -/
def walk : PyNode → List PyNode
  | .node k cs => .node k cs :: walkList cs
/-- The walks of a list of siblings, concatenated. -/
def walkList : List PyNode → List PyNode
  | [] => []
  | c :: cs => walk c ++ walkList cs
end

/-- The increment one visited node contributes in `_calculate_complexity`'s
`if/elif` chain (`ast.BoolOp` contributes `len(child.values) - 1`). -/
def contrib : PyNode → Nat
  | .node k _ =>
    match k with
    | .ifStmt => 1
    | .forStmt => 1
    | .whileStmt => 1
    | .exceptHandler => 1
    | .boolOp n => n - 1
    | .listComp => 1
    | .dictComp => 1
    | .setComp => 1
    | .generatorExp => 1
    | .assertStmt => 1
    | .functionDef => 0
    | .other => 0

/-- `ComplexityAnalyzer._calculate_complexity`: start at 1 and accumulate the
per-node increments over `ast.walk(node)`. -/
def calculateComplexity (n : PyNode) : Nat :=
  (walk n).foldl (fun acc c => acc + contrib c) 1

def isIf : PyNode → Bool
  | .node .ifStmt _ => true
  | _ => false

def isLoop : PyNode → Bool
  | .node .forStmt _ => true
  | .node .whileStmt _ => true
  | _ => false

def isExceptHandler : PyNode → Bool
  | .node .exceptHandler _ => true
  | _ => false

def isComprehension : PyNode → Bool
  | .node .listComp _ => true
  | .node .dictComp _ => true
  | .node .setComp _ => true
  | .node .generatorExp _ => true
  | _ => false

def isAssertStmt : PyNode → Bool
  | .node .assertStmt _ => true
  | _ => false

def isFuncDef : PyNode → Bool
  | .node .functionDef _ => true
  | _ => false

/-- `operand count − 1` for a boolean expression, 0 for any other node. -/
def boolOpExtra : PyNode → Nat
  | .node (.boolOp n) _ => n - 1
  | _ => 0

/-- Number of conditional branches in the function body (walk included). -/
def countIf (n : PyNode) : Nat := ((walk n).filter isIf).length

/-- Number of loop constructs (`for` and `while`). -/
def countLoop (n : PyNode) : Nat := ((walk n).filter isLoop).length

/-- Number of exception handlers. -/
def countExcept (n : PyNode) : Nat := ((walk n).filter isExceptHandler).length

/-- Number of comprehension/generator expressions. -/
def countComprehension (n : PyNode) : Nat := ((walk n).filter isComprehension).length

/-- Number of assertions. -/
def countAssert (n : PyNode) : Nat := ((walk n).filter isAssertStmt).length

/-- Sum over boolean expressions of `operand count − 1`. -/
def sumBoolOpExtra (n : PyNode) : Nat := ((walk n).map boolOpExtra).sum

lemma foldl_add_contrib (l : List PyNode) (acc : Nat) :
    l.foldl (fun acc c => acc + contrib c) acc = acc + (l.map contrib).sum := by
  induction l generalizing acc with
  | nil => simp
  | cons c cs ih => simp [ih, Nat.add_assoc]

lemma contrib_split (c : PyNode) :
    contrib c = (if isIf c then 1 else 0) + (if isLoop c then 1 else 0) +
      (if isExceptHandler c then 1 else 0) + boolOpExtra c +
      (if isComprehension c then 1 else 0) + (if isAssertStmt c then 1 else 0) := by
  rcases c with ⟨k, cs⟩
  cases k <;> simp [contrib, isIf, isLoop, isExceptHandler, isComprehension,
    isAssertStmt, boolOpExtra]

lemma sum_contrib_split (l : List PyNode) :
    (l.map contrib).sum = (l.filter isIf).length + (l.filter isLoop).length +
      (l.filter isExceptHandler).length + (l.map boolOpExtra).sum +
      (l.filter isComprehension).length + (l.filter isAssertStmt).length := by
  induction l with
  | nil => simp
  | cons c cs ih =>
    simp only [List.map_cons, List.sum_cons, List.filter_cons, ih, contrib_split c]
    by_cases h1 : isIf c <;> by_cases h2 : isLoop c <;>
      by_cases h3 : isExceptHandler c <;> by_cases h4 : isComprehension c <;>
      by_cases h5 : isAssertStmt c <;>
      simp [h1, h2, h3, h4, h5] <;> omega

/-- C6: the computed cyclomatic complexity is `1 + branches + loops +
handlers + Σ (boolean-operand-count − 1) + comprehensions + assertions`; in
particular a function with exactly three conditional branches and nothing
else has complexity 4. -/
theorem cyclomatic_complexity_formula (n : PyNode) :
    calculateComplexity n = 1 + countIf n + countLoop n + countExcept n +
      sumBoolOpExtra n + countComprehension n + countAssert n ∧
    (countIf n = 3 → countLoop n = 0 → countExcept n = 0 → sumBoolOpExtra n = 0 →
      countComprehension n = 0 → countAssert n = 0 → calculateComplexity n = 4) := by
  have hmain : calculateComplexity n = 1 + countIf n + countLoop n + countExcept n +
      sumBoolOpExtra n + countComprehension n + countAssert n := by
    unfold calculateComplexity countIf countLoop countExcept sumBoolOpExtra
      countComprehension countAssert
    rw [foldl_add_contrib, sum_contrib_split]
    omega
  refine ⟨hmain, ?_⟩
  intro h1 h2 h3 h4 h5 h6
  rw [hmain, h1, h2, h3, h4, h5, h6]

/-- Witness: a function body containing exactly three `if` statements has
cyclomatic complexity 4. -/
theorem cyclomatic_complexity_formula_witness :
    calculateComplexity (.node .functionDef
      [.node .ifStmt [], .node .ifStmt [], .node .ifStmt []]) = 4 :=
  (cyclomatic_complexity_formula
      (.node .functionDef [.node .ifStmt [], .node .ifStmt [], .node .ifStmt []])).2
    (by simp [countIf, walk, walkList, isIf])
    (by simp [countLoop, walk, walkList, isLoop])
    (by simp [countExcept, walk, walkList, isExceptHandler])
    (by simp [sumBoolOpExtra, walk, walkList, boolOpExtra])
    (by simp [countComprehension, walk, walkList, isComprehension])
    (by simp [countAssert, walk, walkList, isAssertStmt])

/-- The children of an AST node. -/
def PyNode.children : PyNode → List PyNode
  | .node _ cs => cs

/-- `ComplexityAnalyzer._analyze_module` records one entry per `FunctionDef`
node of `ast.walk(tree)` — nested functions included. -/
def moduleFunctionNodes (tree : PyNode) : List PyNode :=
  (walk tree).filter isFuncDef

mutual
/-- A node of `walk f` owns a contiguous segment of `walk f`: its own walk. -/
theorem walk_decomp (f g : PyNode) (h : g ∈ walk f) :
    ∃ l1 l2, walk f = l1 ++ walk g ++ l2 := by
  rcases f with ⟨k, cs⟩
  rw [walk] at h
  rcases List.mem_cons.mp h with rfl | h
  · exact ⟨[], [], by simp⟩
  · rcases walkList_decomp cs g h with ⟨l1, l2, heq⟩
    exact ⟨PyNode.node k cs :: l1, l2, by rw [walk, heq]; simp⟩

theorem walkList_decomp (cs : List PyNode) (g : PyNode) (h : g ∈ walkList cs) :
    ∃ l1 l2, walkList cs = l1 ++ walk g ++ l2 := by
  match cs with
  | [] => rw [walkList] at h; exact absurd h (List.not_mem_nil g)
  | c :: cs' =>
    rw [walkList] at h
    rcases List.mem_append.mp h with h | h
    · rcases walk_decomp c g h with ⟨l1, l2, heq⟩
      exact ⟨l1, l2 ++ walkList cs', by rw [walkList, heq]; simp⟩
    · rcases walkList_decomp cs' g h with ⟨l1, l2, heq⟩
      exact ⟨walk c ++ l1, l2, by rw [walkList, heq]; simp⟩
end

lemma self_mem_walk (f : PyNode) : f ∈ walk f := by
  rcases f with ⟨k, cs⟩
  rw [walk]
  exact List.mem_cons_self _ _

lemma walk_eq_cons (f : PyNode) : walk f = f :: walkList f.children := by
  rcases f with ⟨k, cs⟩
  rw [walk, PyNode.children]

lemma one_le_calculateComplexity (n : PyNode) : 1 ≤ calculateComplexity n := by
  unfold calculateComplexity
  rw [foldl_add_contrib]
  omega

/-- C10: for a function `f` with a nested function `g`, the analyzer records
both (two `FunctionDef` records), and every decision point inside `g` is
counted both in `g`'s own complexity and again in `f`'s: `f`'s complexity is
exactly `1 +` (`f`'s decision points outside `g`) `+ (complexity g − 1)`. -/
theorem nested_function_double_count (tree f g : PyNode)
    (hfmem : f ∈ walk tree) (hffn : isFuncDef f = true)
    (hgmem : g ∈ walkList f.children) (hgfn : isFuncDef g = true) :
    f ∈ moduleFunctionNodes tree ∧ g ∈ moduleFunctionNodes tree ∧
    2 ≤ (moduleFunctionNodes tree).length ∧
    ∃ l1 l2, walk f = l1 ++ walk g ++ l2 ∧
      calculateComplexity f =
        1 + ((l1.map contrib).sum + (l2.map contrib).sum) +
          (calculateComplexity g - 1) := by
  rcases walkList_decomp f.children g hgmem with ⟨m1, m2, hm⟩
  have hwf : walk f = (f :: m1) ++ walk g ++ m2 := by
    rw [walk_eq_cons, hm]; simp
  rcases walk_decomp tree f hfmem with ⟨a, b, hwt⟩
  have hgf : g ∈ walk f := by
    rw [hwf]
    exact List.mem_append_left _ (List.mem_append_right _ (self_mem_walk g))
  have hgt : g ∈ walk tree := by
    rw [hwt]
    exact List.mem_append_left _ (List.mem_append_right _ hgf)
  refine ⟨List.mem_filter.mpr ⟨hfmem, hffn⟩, List.mem_filter.mpr ⟨hgt, hgfn⟩, ?_, ?_⟩
  · unfold moduleFunctionNodes
    rw [hwt, hwf, walk_eq_cons g]
    simp only [List.filter_append, List.filter_cons, hffn, hgfn, if_pos,
      List.length_append, List.length_cons]
    omega
  · refine ⟨f :: m1, m2, hwf, ?_⟩
    have hf : calculateComplexity f = 1 + ((walk f).map contrib).sum := by
      unfold calculateComplexity; rw [foldl_add_contrib]
    have hg : calculateComplexity g = 1 + ((walk g).map contrib).sum := by
      unfold calculateComplexity; rw [foldl_add_contrib]
    rw [hf, hg, hwf]
    simp only [List.map_append, List.sum_append]
    omega

/-- Witness: a module with `f` containing one `if` and a nested `g` that
contains one `if` records both functions, and `g`'s branch is double counted. -/
theorem nested_function_double_count_witness :
    PyNode.node .functionDef [PyNode.node .ifStmt [],
        PyNode.node .functionDef [PyNode.node .ifStmt []]] ∈
      moduleFunctionNodes (PyNode.node .other
        [PyNode.node .functionDef [PyNode.node .ifStmt [],
          PyNode.node .functionDef [PyNode.node .ifStmt []]]]) ∧
    PyNode.node .functionDef [PyNode.node .ifStmt []] ∈
      moduleFunctionNodes (PyNode.node .other
        [PyNode.node .functionDef [PyNode.node .ifStmt [],
          PyNode.node .functionDef [PyNode.node .ifStmt []]]]) ∧
    2 ≤ (moduleFunctionNodes (PyNode.node .other
        [PyNode.node .functionDef [PyNode.node .ifStmt [],
          PyNode.node .functionDef [PyNode.node .ifStmt []]]])).length := by
  have h := nested_function_double_count
    (PyNode.node .other [PyNode.node .functionDef [PyNode.node .ifStmt [],
      PyNode.node .functionDef [PyNode.node .ifStmt []]]])
    (PyNode.node .functionDef [PyNode.node .ifStmt [],
      PyNode.node .functionDef [PyNode.node .ifStmt []]])
    (PyNode.node .functionDef [PyNode.node .ifStmt []])
    (by simp [walk, walkList]) rfl
    (by simp [walk, walkList, PyNode.children]) rfl
  exact ⟨h.1, h.2.1, h.2.2.1⟩

/-! ## Duplicate detection (`_detect_duplicates` / `_is_duplicate_group`)

A function record keeps the fields the detector reads (the raw `source` text,
from which `hash` is derived, is omitted — the hash is opaque here). -/

/-- One analyzed function record. -/
structure FuncRec where
  name : String
  module : String
  file : String
  line : Nat
  complexity : Nat
  lines : Nat
  hash : String
deriving DecidableEq, Repr

/-- The `{name, module, file, line}` sub-record reported per duplicate. -/
structure FuncRef where
  name : String
  module : String
  file : String
  line : Nat
deriving DecidableEq, Repr

/-- A reported duplicate group. -/
structure DupGroup where
  count : Nat
  functions : List FuncRef
  lines : Nat
  complexity : Nat
deriving DecidableEq, Repr

/-- The reported projection of a function record. -/
def funcRef (f : FuncRec) : FuncRef := ⟨f.name, f.module, f.file, f.line⟩

/-- The hash keys of `hash_groups` in first-occurrence order. -/
def firstOccHashes (funcs : List FuncRec) : List String :=
  (funcs.map FuncRec.hash).foldl setAdd []

/-- `hash_groups[h]`: the records with hash `h`, in scan order. -/
def hashGroup (funcs : List FuncRec) (h : String) : List FuncRec :=
  funcs.filter (fun f => f.hash = h)

/-- `ComplexityAnalyzer._is_duplicate_group`: at least two members, all of
them with the lines and complexity of the first. -/
def isDuplicateGroup (group : List FuncRec) : Bool :=
  if group.length < 2 then false
  else
    match group with
    | [] => false
    | first :: rest =>
      rest.all (fun f => f.lines = first.lines && f.complexity = first.complexity)

/-- The dict appended for a surviving group (`count`, the reported
sub-records, and the first member's lines and complexity). -/
def mkDupGroup (group : List FuncRec) : DupGroup :=
  { count := group.length,
    functions := group.map funcRef,
    lines := (group.headD ⟨"", "", "", 0, 0, 0, ""⟩).lines,
    complexity := (group.headD ⟨"", "", "", 0, 0, 0, ""⟩).complexity }

/-- `ComplexityAnalyzer._detect_duplicates`: group by hash, keep the groups of
size ≥ 2 that pass `_is_duplicate_group`. -/
def detectDuplicates (funcs : List FuncRec) : List DupGroup :=
  (firstOccHashes funcs).filterMap (fun h =>
    if 2 ≤ (hashGroup funcs h).length ∧ isDuplicateGroup (hashGroup funcs h) = true
    then some (mkDupGroup (hashGroup funcs h)) else none)

lemma isDuplicateGroup_uniform {group : List FuncRec}
    (h : isDuplicateGroup group = true) :
    ∀ a ∈ group, ∀ b ∈ group, a.lines = b.lines ∧ a.complexity = b.complexity := by
  unfold isDuplicateGroup at h
  by_cases hlen : group.length < 2
  · rw [if_pos hlen] at h; exact absurd h (by simp)
  · rw [if_neg hlen] at h
    match group with
    | [] => exact absurd h (by simp)
    | first :: rest =>
      simp only [List.all_eq_true, Bool.and_eq_true, decide_eq_true_eq] at h
      intro a ha b hb
      have key : ∀ x ∈ first :: rest, x.lines = first.lines ∧
          x.complexity = first.complexity := by
        intro x hx
        rcases List.mem_cons.mp hx with rfl | hx
        · exact ⟨rfl, rfl⟩
        · exact h x hx
      rcases key a ha with ⟨ha1, ha2⟩
      rcases key b hb with ⟨hb1, hb2⟩
      rw [ha1, ha2, hb1, hb2]
      exact ⟨rfl, rfl⟩

lemma isDuplicateGroup_of_uniform {group : List FuncRec}
    (hlen : 2 ≤ group.length)
    (h : ∀ a ∈ group, ∀ b ∈ group, a.lines = b.lines ∧ a.complexity = b.complexity) :
    isDuplicateGroup group = true := by
  unfold isDuplicateGroup
  rw [if_neg (by omega)]
  match group with
  | [] => simp at hlen
  | first :: rest =>
    simp only [List.all_eq_true, Bool.and_eq_true, decide_eq_true_eq]
    intro f hf
    exact h f (List.mem_cons_of_mem _ hf) first (List.mem_cons_self _ _)

lemma mem_detectDuplicates {funcs : List FuncRec} {d : DupGroup} :
    d ∈ detectDuplicates funcs ↔
      ∃ h ∈ firstOccHashes funcs, 2 ≤ (hashGroup funcs h).length ∧
        isDuplicateGroup (hashGroup funcs h) = true ∧
        d = mkDupGroup (hashGroup funcs h) := by
  unfold detectDuplicates
  rw [List.mem_filterMap]
  constructor
  · rintro ⟨h, hh, hd⟩
    by_cases hc : 2 ≤ (hashGroup funcs h).length ∧
        isDuplicateGroup (hashGroup funcs h) = true
    · rw [if_pos hc] at hd
      exact ⟨h, hh, hc.1, hc.2, (Option.some_inj.mp hd).symm⟩
    · rw [if_neg hc] at hd; exact absurd hd (by simp)
  · rintro ⟨h, hh, h1, h2, rfl⟩
    exact ⟨h, hh, by rw [if_pos ⟨h1, h2⟩]⟩

lemma hash_mem_firstOccHashes {funcs : List FuncRec} {f : FuncRec}
    (hf : f ∈ funcs) : f.hash ∈ firstOccHashes funcs := by
  unfold firstOccHashes
  rw [foldl_setAdd_mem]
  exact Or.inr (List.mem_map.mpr ⟨f, hf, rfl⟩)

lemma two_mem_le_length {α : Type} {l : List α} {a b : α}
    (ha : a ∈ l) (hb : b ∈ l) (hne : a ≠ b) : 2 ≤ l.length := by
  match l with
  | [] => exact absurd ha (List.not_mem_nil a)
  | [x] =>
    rcases List.mem_singleton.mp ha with rfl
    rcases List.mem_singleton.mp hb with rfl
    exact absurd rfl hne
  | _ :: _ :: _ => simp

/-- C7 counterexample: two identical functions (`f1`, `f2`: same hash, same
length 2, same complexity 1) are NOT reported as duplicates when a third
function shares their hash but has a different length — the whole hash group
fails `_is_duplicate_group` and is dropped, so the claim as stated is false. -/
theorem dup_detection_spoiler :
    detectDuplicates
        [⟨"f1", "m", "a.py", 1, 1, 2, "h"⟩, ⟨"f2", "m", "b.py", 1, 1, 2, "h"⟩,
         ⟨"f3", "m", "c.py", 1, 1, 3, "h"⟩] = [] ∧
    (⟨"f1", "m", "a.py", 1, 1, 2, "h"⟩ : FuncRec).hash =
      (⟨"f2", "m", "b.py", 1, 1, 2, "h"⟩ : FuncRec).hash ∧
    (⟨"f1", "m", "a.py", 1, 1, 2, "h"⟩ : FuncRec).lines =
      (⟨"f2", "m", "b.py", 1, 1, 2, "h"⟩ : FuncRec).lines ∧
    (⟨"f1", "m", "a.py", 1, 1, 2, "h"⟩ : FuncRec).complexity =
      (⟨"f2", "m", "b.py", 1, 1, 2, "h"⟩ : FuncRec).complexity := by
  decide

/-- C7 (amended): a reported group is a whole hash class, of size ≥ 2, all of
whose members share (length, complexity); two distinct functions with the
same hash, length and complexity are reported together PROVIDED every
function of their hash class shares that length and complexity; and a
function whose line count differs from another function of the same hash
appears in no reported group (so altering one line count removes the pair
from the report).  Records are assumed distinguishable by their reported
`(name, module, file, line)` projection. -/
theorem duplicates_grouping_amended (funcs : List FuncRec)
    (hna : ∀ f1 ∈ funcs, ∀ f2 ∈ funcs, funcRef f1 = funcRef f2 → f1 = f2) :
    (∀ d ∈ detectDuplicates funcs, ∃ h, 2 ≤ (hashGroup funcs h).length ∧
      (∀ a ∈ hashGroup funcs h, ∀ b ∈ hashGroup funcs h,
        a.lines = b.lines ∧ a.complexity = b.complexity) ∧
      d.functions = (hashGroup funcs h).map funcRef ∧
      d.count = (hashGroup funcs h).length) ∧
    (∀ f ∈ funcs, ∀ f' ∈ funcs, f.hash = f'.hash → f ≠ f' →
      f.lines = f'.lines → f.complexity = f'.complexity →
      (∀ x ∈ hashGroup funcs f.hash, ∀ y ∈ hashGroup funcs f.hash,
        x.lines = y.lines ∧ x.complexity = y.complexity) →
      ∃ d ∈ detectDuplicates funcs, funcRef f ∈ d.functions ∧
        funcRef f' ∈ d.functions) ∧
    (∀ f ∈ funcs, ∀ f' ∈ funcs, f.hash = f'.hash → f.lines ≠ f'.lines →
      ∀ d ∈ detectDuplicates funcs, funcRef f ∉ d.functions) := by
  refine ⟨?_, ?_, ?_⟩
  · intro d hd
    rcases mem_detectDuplicates.mp hd with ⟨h, hh, hlen, hdup, rfl⟩
    exact ⟨h, hlen, isDuplicateGroup_uniform hdup, rfl, rfl⟩
  · intro f hf f' hf' hhash hne hlines hcx huni
    have hfg : f ∈ hashGroup funcs f.hash := by
      unfold hashGroup; rw [List.mem_filter]; exact ⟨hf, by simp⟩
    have hfg' : f' ∈ hashGroup funcs f.hash := by
      unfold hashGroup; rw [List.mem_filter]; exact ⟨hf', by simp [hhash]⟩
    have hlen : 2 ≤ (hashGroup funcs f.hash).length := two_mem_le_length hfg hfg' hne
    have hdup : isDuplicateGroup (hashGroup funcs f.hash) = true :=
      isDuplicateGroup_of_uniform hlen huni
    refine ⟨mkDupGroup (hashGroup funcs f.hash),
      mem_detectDuplicates.mpr
        ⟨f.hash, hash_mem_firstOccHashes hf, hlen, hdup, rfl⟩, ?_, ?_⟩
    · exact List.mem_map.mpr ⟨f, hfg, rfl⟩
    · exact List.mem_map.mpr ⟨f', hfg', rfl⟩
  · intro f hf f' hf' hhash hlines d hd hmem
    rcases mem_detectDuplicates.mp hd with ⟨h, hh, hlen, hdup, rfl⟩
    have : funcRef f ∈ (hashGroup funcs h).map funcRef := by
      simpa [mkDupGroup] using hmem
    rcases List.mem_map.mp this with ⟨f0, hf0, href⟩
    have hf0funcs : f0 ∈ funcs := (List.mem_filter.mp hf0).1
    have hf0f : f0 = f := hna f0 hf0funcs f hf (by rw [href])
    subst hf0f
    have hfh : f0.hash = h := by
      have := (List.mem_filter.mp hf0).2
      simpa using this
    have hfg' : f' ∈ hashGroup funcs h := by
      unfold hashGroup; rw [List.mem_filter]
      exact ⟨hf', by simp [← hhash, hfh]⟩
    exact hlines (isDuplicateGroup_uniform hdup f0 hf0 f' hfg').1

/-- Witness: in a list of exactly the two identical functions the amended
theorem reports them together. -/
theorem duplicates_grouping_amended_witness :
    ∃ d ∈ detectDuplicates
        [⟨"f1", "m", "a.py", 1, 1, 2, "h"⟩, ⟨"f2", "m", "b.py", 1, 1, 2, "h"⟩],
      funcRef ⟨"f1", "m", "a.py", 1, 1, 2, "h"⟩ ∈ d.functions ∧
      funcRef ⟨"f2", "m", "b.py", 1, 1, 2, "h"⟩ ∈ d.functions := by
  have h := duplicates_grouping_amended
    [⟨"f1", "m", "a.py", 1, 1, 2, "h"⟩, ⟨"f2", "m", "b.py", 1, 1, 2, "h"⟩]
    (by decide)
  exact h.2.1 ⟨"f1", "m", "a.py", 1, 1, 2, "h"⟩ (by decide)
    ⟨"f2", "m", "b.py", 1, 1, 2, "h"⟩ (by decide) rfl (by decide) rfl rfl (by decide)

/-! ## Cycle detector (`CycleDetector._tarjan_scc`)

Tarjan's algorithm exactly as written: a recursive `strongconnect` assigning
discovery indices and low-links, an explicit traversal stack mirrored by the
`on_stack` set, and a pop-to-root step when `lowlink[node] == index[node]`.
The Python recursion is embedded with fuel; one unit is consumed per
`strongconnect` entry, and every entry indexes a previously unindexed key, so
fuel `|keys|` is proved sufficient. -/

/-- The mutable state of `_tarjan_scc`: `index_counter`, the `index` and
`lowlink` dictionaries, the traversal stack (head = top), the `on_stack` set
and the accumulated components. -/
structure TjState where
  n : Nat
  idx : String → Option Nat
  low : String → Nat
  stack : List String
  onStk : String → Bool
  sccs : List (List String)

/-- The initial state of `_tarjan_scc`. -/
def initTjState : TjState :=
  { n := 0, idx := fun _ => none, low := fun _ => 0,
    stack := [], onStk := fun _ => false, sccs := [] }

/-- `index[v]`, read only where the algorithm guarantees it is set. -/
def idxD (s : TjState) (v : String) : Nat := (s.idx v).getD 0

/-- Pop stack entries down to (and including) the first occurrence of `v`:
the `while True: w = stack.pop() ... if w == node: break` loop.  Returns the
popped component and the remaining stack. -/
def popWhile (v : String) : List String → List String × List String
  | [] => ([], [])
  | w :: rest =>
    if w = v then ([w], rest)
    else
      let p := popWhile v rest
      (w :: p.1, p.2)

/-- The pop-to-root step executed when `lowlink[node] == index[node]`. -/
def popRoot (v : String) (s : TjState) : TjState :=
  let p := popWhile v s.stack
  { s with stack := p.2,
           onStk := fun w => if w ∈ p.1 then false else s.onStk w,
           sccs := s.sccs ++ [p.1] }

/-- The entry of `strongconnect(node)`: assign `index`/`lowlink`, bump the
counter, push the node and mark it on-stack. -/
def pushNode (v : String) (s : TjState) : TjState :=
  { n := s.n + 1,
    idx := fun w => if w = v then some s.n else s.idx w,
    low := fun w => if w = v then s.n else s.low w,
    stack := v :: s.stack,
    onStk := fun w => if w = v then true else s.onStk w,
    sccs := s.sccs }

/-- The tail of `strongconnect(node)`: pop a component if the node is a root
(`lowlink[node] == index[node]`). -/
def rootCheck (v : String) (s : TjState) : TjState :=
  if s.low v = idxD s v then popRoot v s else s

mutual
/-- `strongconnect(node)`: index and push the node, visit its neighbors, then
pop a component if the node is a root.  `fuel = 0` cannot be reached from a
sufficiently fueled call (proved below). -/
def strongconnect (g : Graph) (fuel : Nat) (v : String) (s : TjState) : TjState :=
  match fuel with
  | 0 => s
  | fuel + 1 =>
    rootCheck v (visitNeighbors g fuel v (neighbors g v) (pushNode v s))
termination_by (fuel, 0)

/-- One iteration of the `for neighbor in self.graph.get(node, [])` loop:
recurse on an unindexed neighbor and fold its low-link, or fold the index of
a neighbor still on the stack. -/
def visitOne (g : Graph) (fuel : Nat) (v w : String) (s : TjState) : TjState :=
  if (s.idx w).isNone then
    let t := strongconnect g fuel w s
    { t with low := fun u => if u = v then min (t.low v) (t.low w) else t.low u }
  else if s.onStk w then
    { s with low := fun u => if u = v then min (s.low v) (idxD s w) else s.low u }
  else s
termination_by (fuel, 1)

/-- The neighbor loop of `strongconnect`. -/
def visitNeighbors (g : Graph) (fuel : Nat) (v : String) (ws : List String)
    (s : TjState) : TjState :=
  match ws with
  | [] => s
  | w :: ws' => visitNeighbors g fuel v ws' (visitOne g fuel v w s)
termination_by (fuel, ws.length + 2)
end

/-- `CycleDetector._tarjan_scc`: run `strongconnect` from every unindexed
key, in key order, and return the accumulated components. -/
def tarjanSCC (g : Graph) : List (List String) :=
  ((keysOf g).foldl (fun s v =>
      if (s.idx v).isNone then strongconnect g (keysOf g).length v s else s)
    initTjState).sccs

/-- The nodes already assembled into components. -/
def sccNodes (s : TjState) : List String := s.sccs.flatten

/-- The number of still-unindexed keys: the fuel measure. -/
def unidx (g : Graph) (s : TjState) : Nat :=
  ((keysOf g).filter (fun k => (s.idx k).isNone)).length

/-- The state invariant of Tarjan's traversal that the partition property
rests on: a duplicate-free stack of indexed nodes mirrored exactly by
`on_stack`, components that are pairwise disjoint from each other and from
the stack, and `indexed = on stack ∨ in a component`. -/
structure TjInv (g : Graph) (s : TjState) : Prop where
  stackNodup : s.stack.Nodup
  onStkIff : ∀ v, s.onStk v = true ↔ v ∈ s.stack
  sccNodup : (sccNodes s).Nodup
  idxIff : ∀ v, (s.idx v).isSome ↔ (v ∈ s.stack ∨ v ∈ sccNodes s)
  disj : ∀ v ∈ s.stack, v ∉ sccNodes s
  idxKeys : ∀ v, (s.idx v).isSome → v ∈ keysOf g
  idxLt : ∀ v i, s.idx v = some i → i < s.n

/-- Index-map extension: old indices survive and fresh indices are ≥ the old
counter. -/
def IdxExt (s s' : TjState) : Prop :=
  (∀ w i, s.idx w = some i → s'.idx w = some i) ∧ s.n ≤ s'.n ∧
  (∀ w i, s'.idx w = some i → s.idx w = some i ∨ s.n ≤ i)

/-- Stack extension: the old stack is preserved at the bottom and every new
entry carries a fresh index. -/
def StackExt (s s' : TjState) : Prop :=
  ∃ pre, s'.stack = pre ++ s.stack ∧
    ∀ u ∈ pre, ∃ i, s'.idx u = some i ∧ s.n ≤ i

/-- Component-list extension. -/
def SccsExt (s s' : TjState) : Prop := ∃ ls, s'.sccs = s.sccs ++ ls

/-- Every stack entry has an index at least `m`. -/
def StackB (s : TjState) (m : Nat) : Prop :=
  ∀ u ∈ s.stack, ∃ i, s.idx u = some i ∧ m ≤ i

lemma filter_length_le {α : Type} (l : List α) (p q : α → Bool)
    (h : ∀ x ∈ l, q x = true → p x = true) :
    (l.filter q).length ≤ (l.filter p).length := by
  induction l with
  | nil => simp
  | cons a as ih =>
    have iha := ih (fun x hx => h x (List.mem_cons_of_mem _ hx))
    simp only [List.filter_cons]
    by_cases hq : q a = true
    · rw [if_pos hq, if_pos (h a (List.mem_cons_self _ _) hq)]
      simpa using iha
    · rw [if_neg hq]
      by_cases hp : p a = true
      · rw [if_pos hp]
        simp only [List.length_cons]
        omega
      · rw [if_neg hp]; exact iha

lemma filter_length_lt {α : Type} {l : List α} {v : α} (p q : α → Bool)
    (hv : v ∈ l) (hpv : p v = true) (hqv : q v = false)
    (h : ∀ x ∈ l, q x = true → p x = true) :
    (l.filter q).length < (l.filter p).length := by
  induction l with
  | nil => exact absurd hv (List.not_mem_nil v)
  | cons a as ih =>
    simp only [List.filter_cons]
    rcases List.mem_cons.mp hv with rfl | hv'
    · rw [if_pos hpv, if_neg (by simp [hqv])]
      have := filter_length_le as p q (fun x hx => h x (List.mem_cons_of_mem _ hx))
      simp only [List.length_cons]
      omega
    · have iha := ih hv' (fun x hx => h x (List.mem_cons_of_mem _ hx))
      by_cases hq : q a = true
      · rw [if_pos hq, if_pos (h a (List.mem_cons_self _ _) hq)]
        simpa using iha
      · rw [if_neg hq]
        by_cases hp : p a = true
        · rw [if_pos hp]
          simp only [List.length_cons]
          omega
        · rw [if_neg hp]; exact iha

lemma unidx_le_keys (g : Graph) (s : TjState) : unidx g s ≤ (keysOf g).length :=
  List.length_filter_le _ _

lemma unidx_mono {g : Graph} {s s' : TjState}
    (h : ∀ w i, s.idx w = some i → s'.idx w = some i) :
    unidx g s' ≤ unidx g s := by
  refine filter_length_le _ _ _ (fun k _ hq => ?_)
  rw [Option.isNone_iff_eq_none] at hq ⊢
  cases hs : s.idx k with
  | none => rfl
  | some i => exact absurd (h k i hs) (by simp [hq])

lemma unidx_strict {g : Graph} {s s' : TjState} {v : String}
    (hv : v ∈ keysOf g) (h0 : s.idx v = none) (h1 : (s'.idx v).isSome)
    (hmono : ∀ w i, s.idx w = some i → s'.idx w = some i) :
    unidx g s' < unidx g s := by
  refine filter_length_lt _ _ hv (by simp [h0]) (by simpa using h1) ?_
  intro x _ hq
  rw [Option.isNone_iff_eq_none] at hq ⊢
  cases hs : s.idx x with
  | none => rfl
  | some i => exact absurd (hmono x i hs) (by simp [hq])

lemma idxExt_refl (s : TjState) : IdxExt s s :=
  ⟨fun _ _ h => h, le_refl _, fun _ _ h => Or.inl h⟩

lemma idxExt_comp {s t u : TjState} (h1 : IdxExt s t) (h2 : IdxExt t u) :
    IdxExt s u := by
  refine ⟨fun w i h => h2.1 w i (h1.1 w i h), le_trans h1.2.1 h2.2.1, ?_⟩
  intro w i h
  rcases h2.2.2 w i h with h' | hge
  · exact h1.2.2 w i h'
  · exact Or.inr (le_trans h1.2.1 hge)

lemma stackExt_refl (s : TjState) : StackExt s s :=
  ⟨[], by simp, by simp⟩

lemma stackExt_comp {s t u : TjState} (h1 : StackExt s t) (h2 : StackExt t u)
    (hit : IdxExt t u) (hn : s.n ≤ t.n) : StackExt s u := by
  rcases h1 with ⟨p1, he1, hf1⟩
  rcases h2 with ⟨p2, he2, hf2⟩
  refine ⟨p2 ++ p1, by rw [he2, he1, List.append_assoc], ?_⟩
  intro x hx
  rcases List.mem_append.mp hx with hx | hx
  · rcases hf2 x hx with ⟨i, hi, hge⟩
    exact ⟨i, hi, le_trans hn hge⟩
  · rcases hf1 x hx with ⟨i, hi, hge⟩
    exact ⟨i, hit.1 x i hi, hge⟩

lemma sccsExt_refl (s : TjState) : SccsExt s s := ⟨[], by simp⟩

lemma sccsExt_comp {s t u : TjState} (h1 : SccsExt s t) (h2 : SccsExt t u) :
    SccsExt s u := by
  rcases h1 with ⟨l1, he1⟩
  rcases h2 with ⟨l2, he2⟩
  exact ⟨l1 ++ l2, by rw [he2, he1, List.append_assoc]⟩

lemma stackB_transport {s s' : TjState} {m : Nat} (hb : StackB s m)
    (hix : IdxExt s s') (hse : StackExt s s') (hm : m ≤ s.n) : StackB s' m := by
  rcases hse with ⟨pre, he, hf⟩
  intro u hu
  rw [he] at hu
  rcases List.mem_append.mp hu with hu | hu
  · rcases hf u hu with ⟨i, hi, hge⟩
    exact ⟨i, hi, le_trans hm hge⟩
  · rcases hb u hu with ⟨i, hi, hge⟩
    exact ⟨i, hix.1 u i hi, hge⟩

lemma popWhile_spec {v : String} : ∀ {pre rest : List String}, v ∉ pre →
    popWhile v (pre ++ v :: rest) = (pre ++ [v], rest) := by
  intro pre
  induction pre with
  | nil => intro rest _; simp [popWhile]
  | cons a as ih =>
    intro rest hv
    have ha : ¬ a = v := fun h => hv (h ▸ List.mem_cons_self _ _)
    have has : v ∉ as := fun h => hv (List.mem_cons_of_mem _ h)
    simp only [List.cons_append, popWhile, if_neg ha]
    rw [show as.append (v :: rest) = as ++ v :: rest from List.append_eq as _, ih has]

lemma sccNodes_push (s : TjState) (l : List String) :
    sccNodes { s with sccs := s.sccs ++ [l] } = sccNodes s ++ l := by
  unfold sccNodes
  simp

/-- `TjInv` does not mention `lowlink`, so low-only updates preserve it. -/
lemma tjInv_lowUpdate {g : Graph} {s : TjState} (h : TjInv g s)
    (l : String → Nat) : TjInv g { s with low := l } :=
  ⟨h.stackNodup, h.onStkIff, h.sccNodup, h.idxIff, h.disj, h.idxKeys, h.idxLt⟩

lemma initTjState_inv (g : Graph) : TjInv g initTjState := by
  refine ⟨List.nodup_nil, ?_, ?_, ?_, ?_, ?_, ?_⟩ <;>
    simp [initTjState, sccNodes]

lemma pushNode_n (v : String) (s : TjState) : (pushNode v s).n = s.n + 1 := rfl

lemma pushNode_stack (v : String) (s : TjState) :
    (pushNode v s).stack = v :: s.stack := rfl

lemma pushNode_sccNodes (v : String) (s : TjState) :
    sccNodes (pushNode v s) = sccNodes s := rfl

lemma pushNode_idx (v : String) (s : TjState) (w : String) :
    (pushNode v s).idx w = if w = v then some s.n else s.idx w := rfl

lemma pushNode_low (v : String) (s : TjState) (w : String) :
    (pushNode v s).low w = if w = v then s.n else s.low w := rfl

lemma pushNode_onStk (v : String) (s : TjState) (w : String) :
    (pushNode v s).onStk w = if w = v then true else s.onStk w := rfl

lemma pushNode_inv {g : Graph} {s : TjState} {v : String} (hinv : TjInv g s)
    (hnone : s.idx v = none) (hkeys : v ∈ keysOf g) : TjInv g (pushNode v s) := by
  have hvstk : v ∉ s.stack := by
    intro hmem
    have : (s.idx v).isSome := (hinv.idxIff v).mpr (Or.inl hmem)
    rw [hnone] at this
    exact absurd this (by simp)
  have hvscc : v ∉ sccNodes s := by
    intro hmem
    have : (s.idx v).isSome := (hinv.idxIff v).mpr (Or.inr hmem)
    rw [hnone] at this
    exact absurd this (by simp)
  refine ⟨?_, ?_, ?_, ?_, ?_, ?_, ?_⟩
  · rw [pushNode_stack]
    exact List.nodup_cons.mpr ⟨hvstk, hinv.stackNodup⟩
  · intro w
    rw [pushNode_onStk, pushNode_stack, List.mem_cons]
    by_cases hw : w = v
    · simp [hw]
    · rw [if_neg hw, hinv.onStkIff w]
      constructor
      · exact Or.inr
      · rintro (rfl | h)
        · exact absurd rfl hw
        · exact h
  · rw [pushNode_sccNodes]
    exact hinv.sccNodup
  · intro w
    rw [pushNode_idx, pushNode_sccNodes, pushNode_stack, List.mem_cons]
    by_cases hw : w = v
    · subst hw
      simp [hvscc]
    · rw [if_neg hw, hinv.idxIff w]
      constructor
      · rintro (h | h)
        · exact Or.inl (Or.inr h)
        · exact Or.inr h
      · rintro ((rfl | h) | h)
        · exact absurd rfl hw
        · exact Or.inl h
        · exact Or.inr h
  · intro w hw
    rw [pushNode_stack] at hw
    rw [pushNode_sccNodes]
    rcases List.mem_cons.mp hw with rfl | hw'
    · exact hvscc
    · exact hinv.disj w hw'
  · intro w hw
    rw [pushNode_idx] at hw
    by_cases hwv : w = v
    · subst hwv; exact hkeys
    · rw [if_neg hwv] at hw
      exact hinv.idxKeys w hw
  · intro w i hw
    rw [pushNode_idx] at hw
    rw [pushNode_n]
    by_cases hwv : w = v
    · rw [if_pos hwv, Option.some_inj] at hw
      omega
    · rw [if_neg hwv] at hw
      have := hinv.idxLt w i hw
      omega

lemma pushNode_idxExt {s : TjState} {v : String} (hnone : s.idx v = none) :
    IdxExt s (pushNode v s) := by
  refine ⟨?_, by rw [pushNode_n]; omega, ?_⟩
  · intro w i h
    rw [pushNode_idx]
    by_cases hwv : w = v
    · subst hwv; rw [hnone] at h; exact absurd h (by simp)
    · rw [if_neg hwv]; exact h
  · intro w i h
    rw [pushNode_idx] at h
    by_cases hwv : w = v
    · rw [if_pos hwv, Option.some_inj] at h
      omega
    · rw [if_neg hwv] at h
      exact Or.inl h

lemma pushNode_stackExt (s : TjState) (v : String) : StackExt s (pushNode v s) := by
  refine ⟨[v], by rw [pushNode_stack]; rfl, ?_⟩
  intro u hu
  rcases List.mem_singleton.mp hu with rfl
  exact ⟨s.n, by rw [pushNode_idx, if_pos rfl], le_refl _⟩

lemma popRoot_preserve {g : Graph} {v : String} {s1 : TjState}
    {pre base : List String} (hinv : TjInv g s1)
    (hstk : s1.stack = pre ++ v :: base) :
    TjInv g (popRoot v s1) ∧ (popRoot v s1).stack = base ∧
    (popRoot v s1).idx = s1.idx ∧ (popRoot v s1).low = s1.low ∧
    (popRoot v s1).n = s1.n ∧ SccsExt s1 (popRoot v s1) := by
  have hnd : (pre ++ v :: base).Nodup := hstk ▸ hinv.stackNodup
  have hvpre : v ∉ pre := by
    intro h
    exact List.disjoint_of_nodup_append hnd h (List.mem_cons_self _ _)
  have hpop : popWhile v s1.stack = (pre ++ [v], base) := by
    rw [hstk]; exact popWhile_spec hvpre
  have hstack' : (popRoot v s1).stack = base := by
    unfold popRoot; rw [hpop]
  have hsccs' : (popRoot v s1).sccs = s1.sccs ++ [pre ++ [v]] := by
    unfold popRoot; rw [hpop]
  have hidx' : (popRoot v s1).idx = s1.idx := by unfold popRoot; rw [hpop]
  have hlow' : (popRoot v s1).low = s1.low := by unfold popRoot; rw [hpop]
  have hn' : (popRoot v s1).n = s1.n := by unfold popRoot; rw [hpop]
  have honstk : ∀ w, (popRoot v s1).onStk w =
      if w ∈ pre ++ [v] then false else s1.onStk w := by
    intro w; unfold popRoot; rw [hpop]
  have hsccNodes' : sccNodes (popRoot v s1) = sccNodes s1 ++ (pre ++ [v]) := by
    unfold sccNodes
    rw [hsccs']
    simp
  have hbaseNodup : base.Nodup :=
    (List.nodup_cons.mp (List.nodup_append.mp hnd).2.1).2
  have hpopNodup : (pre ++ [v]).Nodup := by
    rw [List.nodup_append]
    refine ⟨(List.nodup_append.mp hnd).1, List.nodup_singleton v, ?_⟩
    intro x hx
    rw [List.mem_singleton]
    intro hxv
    exact hvpre (hxv ▸ hx)
  have hpopmem : ∀ w ∈ pre ++ [v], w ∈ s1.stack := by
    intro w hw
    rw [hstk]
    rcases List.mem_append.mp hw with hw | hw
    · exact List.mem_append_left _ hw
    · rcases List.mem_singleton.mp hw with rfl
      exact List.mem_append_right _ (List.mem_cons_self _ _)
  have hbasemem : ∀ w ∈ base, w ∈ s1.stack := by
    intro w hw
    rw [hstk]
    exact List.mem_append_right _ (List.mem_cons_of_mem _ hw)
  have hsplit : ∀ w, w ∈ s1.stack ↔ w ∈ pre ++ [v] ∨ w ∈ base := by
    intro w
    rw [hstk]
    simp only [List.mem_append, List.mem_cons, List.mem_singleton]
    tauto
  have hdisjpop : ∀ w ∈ pre ++ [v], w ∉ base := by
    intro w hw hwb
    rcases List.mem_append.mp hw with hw | hw
    · exact List.disjoint_of_nodup_append hnd hw (List.mem_cons_of_mem _ hwb)
    · rcases List.mem_singleton.mp hw with rfl
      exact (List.nodup_cons.mp (List.nodup_append.mp hnd).2.1).1 hwb
  refine ⟨⟨?_, ?_, ?_, ?_, ?_, ?_, ?_⟩, hstack', hidx', hlow', hn', ⟨_, hsccs'⟩⟩
  · rw [hstack']; exact hbaseNodup
  · intro w
    rw [honstk, hstack']
    by_cases hw : w ∈ pre ++ [v]
    · rw [if_pos hw]
      simp only [Bool.false_eq_true, false_iff]
      exact hdisjpop w hw
    · rw [if_neg hw, hinv.onStkIff w, hsplit w]
      tauto
  · rw [hsccNodes', List.nodup_append]
    refine ⟨hinv.sccNodup, hpopNodup, ?_⟩
    intro x hx hxpop
    exact hinv.disj x (hpopmem x hxpop) hx
  · intro w
    rw [hidx', hsccNodes', hstack', hinv.idxIff w, hsplit w]
    simp only [List.mem_append, List.mem_singleton]
    tauto
  · intro w hw
    rw [hstack'] at hw
    rw [hsccNodes', List.mem_append]
    rintro (h | h)
    · exact hinv.disj w (hbasemem w hw) h
    · exact hdisjpop w h hw
  · intro w hw
    rw [hidx'] at hw
    exact hinv.idxKeys w hw
  · intro w i hw
    rw [hidx'] at hw
    rw [hn']
    exact hinv.idxLt w i hw

/-- What one `strongconnect g fuel v` call guarantees, relative to its entry
state: the invariant is kept, indices/stack/components only extend, `v` gets
the entry counter as its index, low-links of previously indexed nodes are
untouched, `lowlink[v]` stays above any lower bound on the entry stack's
indices, and an empty entry stack is left empty (the root property). -/
structure SCout (g : Graph) (s : TjState) (v : String) (s' : TjState) : Prop where
  inv : TjInv g s'
  idxext : IdxExt s s'
  stackext : StackExt s s'
  sccsext : SccsExt s s'
  idxv : s'.idx v = some s.n
  lowpres : ∀ u, (s.idx u).isSome → s'.low u = s.low u
  lowbound : ∀ m, StackB s m → m ≤ s.n → m ≤ s'.low v
  emptystk : s.stack = [] → s'.stack = []

/-- What the neighbor loop of `strongconnect(v)` guarantees relative to its
entry state; `lowlink[v]` only decreases, and never below a bound satisfied
by the entry stack, counter and `lowlink[v]`. -/
structure VNout (g : Graph) (s : TjState) (v : String) (s' : TjState) : Prop where
  inv : TjInv g s'
  idxext : IdxExt s s'
  stackext : StackExt s s'
  sccsext : SccsExt s s'
  lowpres : ∀ u, (s.idx u).isSome → u ≠ v → s'.low u = s.low u
  lowle : s'.low v ≤ s.low v
  lowbound : ∀ m, StackB s m → m ≤ s.n → m ≤ s.low v → m ≤ s'.low v

lemma vnout_id {g : Graph} (s : TjState) (v : String) (hinv : TjInv g s) :
    VNout g s v s :=
  ⟨hinv, idxExt_refl s, stackExt_refl s, sccsExt_refl s,
   fun _ _ _ => rfl, le_refl _, fun _ _ _ h => h⟩

lemma vnout_comp {g : Graph} {s s' s1 : TjState} {v : String}
    (h1 : VNout g s v s') (h2 : VNout g s' v s1) :
    VNout g s v s1 := by
  refine ⟨h2.inv, idxExt_comp h1.idxext h2.idxext,
    stackExt_comp h1.stackext h2.stackext h2.idxext h1.idxext.2.1,
    sccsExt_comp h1.sccsext h2.sccsext, ?_, le_trans h2.lowle h1.lowle, ?_⟩
  · intro u hu hne
    rcases Option.isSome_iff_exists.mp hu with ⟨i, hi⟩
    have hu' : (s'.idx u).isSome := by rw [h1.idxext.1 u i hi]; rfl
    rw [h2.lowpres u hu' hne, h1.lowpres u hu hne]
  · intro m hb hmn hml
    have step1 : m ≤ s'.low v := h1.lowbound m hb hmn hml
    exact h2.lowbound m (stackB_transport hb h1.idxext h1.stackext hmn)
      (le_trans hmn h1.idxext.2.1) step1

/-- The guarantee of `strongconnect` at a given fuel. -/
def SCstmt (fuel : Nat) : Prop :=
  ∀ (g : Graph) (v : String) (s : TjState), ClosedGraph g → TjInv g s →
    v ∈ keysOf g → s.idx v = none → unidx g s ≤ fuel →
    SCout g s v (strongconnect g fuel v s)

/-- The guarantee of the neighbor loop at a given fuel. -/
def VNstmt (fuel : Nat) : Prop :=
  ∀ (g : Graph) (v : String) (ws : List String) (s : TjState), ClosedGraph g →
    TjInv g s → v ∈ s.stack → (∀ w ∈ ws, w ∈ keysOf g) → unidx g s ≤ fuel →
    VNout g s v (visitNeighbors g fuel v ws s)

lemma SC_zero : SCstmt 0 := by
  intro g v s hc hinv hv hnone hfuel
  exfalso
  have hmem : v ∈ (keysOf g).filter (fun k => (s.idx k).isNone) :=
    List.mem_filter.mpr ⟨hv, by simp [hnone]⟩
  have : 0 < unidx g s := List.length_pos.mpr (List.ne_nil_of_mem hmem)
  omega

lemma visitOne_out {fuel : Nat} (hSC : SCstmt fuel) {g : Graph} {v w : String}
    {s : TjState} (hc : ClosedGraph g) (hinv : TjInv g s) (hv : v ∈ s.stack)
    (hw : w ∈ keysOf g) (hfuel : unidx g s ≤ fuel) :
    VNout g s v (visitOne g fuel v w s) := by
  have hvidx : (s.idx v).isSome := (hinv.idxIff v).mpr (Or.inl hv)
  by_cases hnone : (s.idx w).isNone
  · have hout := hSC g w s hc hinv hw (Option.isNone_iff_eq_none.mp hnone) hfuel
    have hres : visitOne g fuel v w s =
        { strongconnect g fuel w s with
          low := fun u => if u = v then
              min ((strongconnect g fuel w s).low v) ((strongconnect g fuel w s).low w)
            else (strongconnect g fuel w s).low u } := by
      rw [visitOne, if_pos hnone]
    rw [hres]
    refine ⟨tjInv_lowUpdate hout.inv _, hout.idxext, hout.stackext, hout.sccsext,
      ?_, ?_, ?_⟩
    · intro u hu hne
      show (if u = v then _ else (strongconnect g fuel w s).low u) = s.low u
      rw [if_neg hne]
      exact hout.lowpres u hu
    · show (if v = v then min _ _ else _) ≤ s.low v
      rw [if_pos rfl, hout.lowpres v hvidx]
      exact min_le_left _ _
    · intro m hb hmn hml
      show m ≤ (if v = v then min _ _ else _)
      rw [if_pos rfl]
      refine le_min ?_ (hout.lowbound m hb hmn)
      rw [hout.lowpres v hvidx]
      exact hml
  · by_cases hstk : s.onStk w = true
    · have hres : visitOne g fuel v w s =
          { s with low := fun u =>
              if u = v then min (s.low v) (idxD s w) else s.low u } := by
        rw [visitOne, if_neg hnone, if_pos hstk]
      rw [hres]
      refine ⟨tjInv_lowUpdate hinv _, idxExt_refl s, stackExt_refl s, sccsExt_refl s,
        ?_, ?_, ?_⟩
      · intro u _ hne
        show (if u = v then _ else s.low u) = s.low u
        rw [if_neg hne]
      · show (if v = v then min _ _ else _) ≤ s.low v
        rw [if_pos rfl]
        exact min_le_left _ _
      · intro m hb hmn hml
        show m ≤ (if v = v then min _ _ else _)
        rw [if_pos rfl]
        refine le_min hml ?_
        rcases hb w ((hinv.onStkIff w).mp hstk) with ⟨i, hi, hge⟩
        unfold idxD
        rw [hi]
        exact hge
    · have hres : visitOne g fuel v w s = s := by
        rw [visitOne, if_neg hnone, if_neg hstk]
      rw [hres]
      exact vnout_id s v hinv

lemma VN_step (fuel : Nat) (hSC : SCstmt fuel) : VNstmt fuel := by
  intro g v ws
  induction ws with
  | nil =>
    intro s hc hinv hv hws hfuel
    rw [visitNeighbors]
    exact vnout_id s v hinv
  | cons w ws' ih =>
    intro s hc hinv hv hws hfuel
    rw [visitNeighbors]
    have hstep := visitOne_out hSC hc hinv hv (hws w (List.mem_cons_self _ _)) hfuel
    have hv' : v ∈ (visitOne g fuel v w s).stack := by
      rcases hstep.stackext with ⟨pre, he, -⟩
      rw [he]
      exact List.mem_append_right _ hv
    have hfuel' : unidx g (visitOne g fuel v w s) ≤ fuel :=
      le_trans (unidx_mono hstep.idxext.1) hfuel
    have hnext := ih (visitOne g fuel v w s) hc hstep.inv hv'
      (fun x hx => hws x (List.mem_cons_of_mem _ hx)) hfuel'
    exact vnout_comp hstep hnext

lemma SC_step (fuel : Nat) (hVN : VNstmt fuel) : SCstmt (fuel + 1) := by
  intro g v s hc hinv hv hnone hfuel
  have hres : strongconnect g (fuel + 1) v s =
      rootCheck v (visitNeighbors g fuel v (neighbors g v) (pushNode v s)) := by
    rw [strongconnect]
  rw [hres]
  have hinv0 : TjInv g (pushNode v s) := pushNode_inv hinv hnone hv
  have hidx0 : IdxExt s (pushNode v s) := pushNode_idxExt hnone
  have hstk0 : StackExt s (pushNode v s) := pushNode_stackExt s v
  have hsccs0 : SccsExt s (pushNode v s) := ⟨[], by simp [pushNode]⟩
  have hidxv0 : (pushNode v s).idx v = some s.n := by
    rw [pushNode_idx, if_pos rfl]
  have hu0 : unidx g (pushNode v s) ≤ fuel := by
    have hlt := unidx_strict hv hnone (by rw [hidxv0]; rfl) hidx0.1
    omega
  have hvn := hVN g v (neighbors g v) (pushNode v s) hc hinv0
    (by rw [pushNode_stack]; exact List.mem_cons_self _ _)
    (fun w hw => neighbors_sub_keys hc v w hw) hu0
  set s1 := visitNeighbors g fuel v (neighbors g v) (pushNode v s) with hs1
  have hidxv1 : s1.idx v = some s.n := hvn.idxext.1 v s.n hidxv0
  have hidxs1 : IdxExt s s1 := idxExt_comp hidx0 hvn.idxext
  rcases hvn.stackext with ⟨pre, hpre, hprefresh⟩
  have hstk1 : s1.stack = pre ++ v :: s.stack := by
    rw [hpre, pushNode_stack]
  have hlowv0 : (pushNode v s).low v = s.n := by rw [pushNode_low, if_pos rfl]
  have hlow1le : s1.low v ≤ s.n := hlowv0 ▸ hvn.lowle
  have hlowbound1 : ∀ m, StackB s m → m ≤ s.n → m ≤ s1.low v := by
    intro m hb hmn
    refine hvn.lowbound m (stackB_transport hb hidx0 hstk0 hmn)
      (by rw [pushNode_n]; omega) (by rw [hlowv0]; exact hmn)
  have hidxD1 : idxD s1 v = s.n := by unfold idxD; rw [hidxv1]; rfl
  have hlowpres1 : ∀ u, (s.idx u).isSome → s1.low u = s.low u := by
    intro u hu
    have hune : u ≠ v := by
      intro h
      rw [h, hnone] at hu
      exact absurd hu (by simp)
    have h0 : ((pushNode v s).idx u).isSome := by
      rcases Option.isSome_iff_exists.mp hu with ⟨i, hi⟩
      rw [hidx0.1 u i hi]; rfl
    rw [hvn.lowpres u h0 hune, pushNode_low, if_neg hune]
  have hstkfresh : ∀ u ∈ pre ++ [v], ∃ i, s1.idx u = some i ∧ s.n ≤ i := by
    intro u hu
    rcases List.mem_append.mp hu with hu | hu
    · rcases hprefresh u hu with ⟨i, hi, hge⟩
      rw [pushNode_n] at hge
      exact ⟨i, hi, by omega⟩
    · rcases List.mem_singleton.mp hu with rfl
      exact ⟨s.n, hidxv1, le_refl _⟩
  unfold rootCheck
  by_cases hcond : s1.low v = idxD s1 v
  · rw [if_pos hcond]
    rcases popRoot_preserve hvn.inv hstk1 with
      ⟨hinvp, hstkp, hidxp, hlowp, hnp, hsccp⟩
    have hidxextp : IdxExt s1 (popRoot v s1) :=
      ⟨fun w i h => by rw [hidxp]; exact h, by rw [hnp],
       fun w i h => Or.inl (by rw [hidxp] at h; exact h)⟩
    refine ⟨hinvp, idxExt_comp hidxs1 hidxextp, ?_, ?_, ?_, ?_, ?_, ?_⟩
    · exact ⟨[], by rw [hstkp]; rfl, by simp⟩
    · exact sccsExt_comp (sccsExt_comp hsccs0 hvn.sccsext) hsccp
    · rw [hidxp]; exact hidxv1
    · intro u hu
      rw [hlowp]
      exact hlowpres1 u hu
    · intro m hb hmn
      rw [hlowp]
      exact hlowbound1 m hb hmn
    · intro _
      rw [hstkp]
      assumption
  · rw [if_neg hcond]
    refine ⟨hvn.inv, hidxs1, ⟨pre ++ [v], by rw [hstk1]; simp, hstkfresh⟩,
      sccsExt_comp hsccs0 hvn.sccsext, hidxv1, hlowpres1, hlowbound1, ?_⟩
    intro hempty
    exfalso
    apply hcond
    rw [hidxD1]
    refine le_antisymm hlow1le (hlowbound1 s.n ?_ (le_refl _))
    intro u hu
    rw [hempty] at hu
    exact absurd hu (List.not_mem_nil u)

/-- `strongconnect` and its neighbor loop meet their contracts at every
fuel. -/
lemma tarjan_contracts : ∀ fuel : Nat, SCstmt fuel ∧ VNstmt fuel := by
  intro fuel
  induction fuel with
  | zero => exact ⟨SC_zero, VN_step 0 SC_zero⟩
  | succ f ih =>
    have hsc := SC_step f ih.2
    exact ⟨hsc, VN_step (f + 1) hsc⟩

lemma tarjan_loop (g : Graph) (hc : ClosedGraph g) :
    ∀ (ks : List String) (s : TjState), (∀ k ∈ ks, k ∈ keysOf g) → TjInv g s →
      s.stack = [] →
      TjInv g (ks.foldl (fun s v =>
        if (s.idx v).isNone then strongconnect g (keysOf g).length v s else s) s) ∧
      (ks.foldl (fun s v =>
        if (s.idx v).isNone then strongconnect g (keysOf g).length v s else s) s).stack
        = [] ∧
      (∀ w i, s.idx w = some i → (ks.foldl (fun s v =>
        if (s.idx v).isNone then strongconnect g (keysOf g).length v s else s) s).idx w
        = some i) ∧
      (∀ k ∈ ks, ((ks.foldl (fun s v =>
        if (s.idx v).isNone then strongconnect g (keysOf g).length v s else s) s).idx k).isSome) := by
  intro ks
  induction ks with
  | nil =>
    intro s hks hinv hstk
    simp only [List.foldl_nil]
    exact ⟨hinv, hstk, fun w i h => h, by simp⟩
  | cons k ks' ih =>
    intro s hks hinv hstk
    simp only [List.foldl_cons]
    by_cases hidx : (s.idx k).isNone
    · rw [if_pos hidx]
      have hout := (tarjan_contracts (keysOf g).length).1 g k s hc hinv
        (hks k (List.mem_cons_self _ _)) (Option.isNone_iff_eq_none.mp hidx)
        (unidx_le_keys g s)
      have hrest := ih (strongconnect g (keysOf g).length k s)
        (fun x hx => hks x (List.mem_cons_of_mem _ hx)) hout.inv (hout.emptystk hstk)
      refine ⟨hrest.1, hrest.2.1, ?_, ?_⟩
      · intro w i h
        exact hrest.2.2.1 w i (hout.idxext.1 w i h)
      · intro x hx
        rcases List.mem_cons.mp hx with rfl | hx
        · rw [hrest.2.2.1 x s.n hout.idxv]; rfl
        · exact hrest.2.2.2 x hx
    · rw [if_neg hidx]
      have hrest := ih s (fun x hx => hks x (List.mem_cons_of_mem _ hx)) hinv hstk
      refine ⟨hrest.1, hrest.2.1, hrest.2.2.1, ?_⟩
      intro x hx
      rcases List.mem_cons.mp hx with rfl | hx
      · have hsome : (s.idx x).isSome := by
          cases h : s.idx x with
          | none => exact absurd (by rw [h]; rfl) hidx
          | some i => rfl
        rcases Option.isSome_iff_exists.mp hsome with ⟨i, hi⟩
        rw [hrest.2.2.1 x i hi]; rfl
      · exact hrest.2.2.2 x hx

/-- C1: for every dependency graph whose edge targets all lie in the key set,
the components returned by the Tarjan pass partition the module set — every
module is in some component, no module twice (so components are pairwise
disjoint), and components contain only modules. -/
theorem tarjan_scc_partition (g : Graph) (hc : ClosedGraph g) :
    (tarjanSCC g).flatten.Nodup ∧
    (∀ m, m ∈ (tarjanSCC g).flatten ↔ m ∈ keysOf g) ∧
    List.Pairwise List.Disjoint (tarjanSCC g) := by
  have hloop := tarjan_loop g hc (keysOf g) initTjState (fun k hk => hk)
    (initTjState_inv g) rfl
  have hTS : (tarjanSCC g).flatten = sccNodes ((keysOf g).foldl (fun s v =>
      if (s.idx v).isNone then strongconnect g (keysOf g).length v s else s)
      initTjState) := rfl
  have hmem : ∀ m, m ∈ (tarjanSCC g).flatten ↔ m ∈ keysOf g := by
    intro m
    rw [hTS]
    constructor
    · intro h
      exact hloop.1.idxKeys m ((hloop.1.idxIff m).mpr (Or.inr h))
    · intro h
      rcases (hloop.1.idxIff m).mp (hloop.2.2.2 m h) with hstk | hscc
      · rw [hloop.2.1] at hstk
        exact absurd hstk (List.not_mem_nil m)
      · exact hscc
  have hnd : (tarjanSCC g).flatten.Nodup := by
    rw [hTS]
    exact hloop.1.sccNodup
  exact ⟨hnd, hmem, (List.nodup_flatten.mp hnd).2⟩

/-- Witness: the two-cycle `a ↔ b` plus an isolated `c`; the component lists
of the Tarjan pass cover exactly `{a, b, c}`. -/
theorem tarjan_scc_partition_witness :
    ClosedGraph [("a", ["b"]), ("b", ["a"]), ("c", [])] ∧
    (∀ m, m ∈ (tarjanSCC [("a", ["b"]), ("b", ["a"]), ("c", [])]).flatten ↔
      m ∈ keysOf [("a", ["b"]), ("b", ["a"]), ("c", [])]) :=
  ⟨by decide, (tarjan_scc_partition _ (by decide)).2.1⟩

/-! ## Representative cycle path (`CycleDetector._find_cycle_path`)

A breadth-first search from the component's first member, confined to the
component, that returns `path + [start]` as soon as it sees an edge back to
`start` from a node with a path of length > 1, and falls back to the bare
member list only if the queue empties.  The `while queue` loop is embedded
with fuel `|scc| + 1`, which is proved sufficient (each iteration pops one
entry, and a node is enqueued at most once). -/

/-- Scan the neighbors of the dequeued node: return on an edge back to
`start`, enqueue unvisited component members, skip the rest.  Returns either
the found path or the updated visited set and the entries to append. -/
def bfsScan (scc : List String) (start : String) (path : List String) :
    List String → List String → List (String × List String) →
      Sum (List String) (List String × List (String × List String))
  | [], vis, acc => Sum.inr (vis, acc)
  | n :: ns, vis, acc =>
    if n ∈ scc then
      if n = start ∧ path.length > 1 then Sum.inl (path ++ [start])
      else if n ∉ vis then
        bfsScan scc start path ns (vis ++ [n]) (acc ++ [(n, path ++ [n])])
      else bfsScan scc start path ns vis acc
    else bfsScan scc start path ns vis acc

/-- The `while queue:` loop of `_find_cycle_path` (fuel-indexed; queue head is
the deque front, new entries are appended at the back). -/
def bfsLoop (g : Graph) (scc : List String) (start : String) :
    Nat → List (String × List String) → List String → List String
  | 0, _, _ => scc
  | _ + 1, [], _ => scc
  | fuel + 1, (node, path) :: rest, vis =>
    match bfsScan scc start path (neighbors g node) vis [] with
    | Sum.inl found => found
    | Sum.inr (vis', newEntries) =>
      bfsLoop g scc start fuel (rest ++ newEntries) vis'

/-- `CycleDetector._find_cycle_path`.  `list(scc)[0]` is the head of the
embedded member list; the detector only calls this on components of size > 1,
so the empty case is unreachable and returns `[]`. -/
def findCyclePath (g : Graph) (scc : List String) : List String :=
  match scc with
  | [] => []
  | start :: _ => bfsLoop g scc start (scc.length + 1) [(start, [start])] [start]

/-- `p` is a walk of the graph confined to the node set `s`: nonempty, every
node in `s`, every consecutive pair an edge. -/
def isWalkIn (g : Graph) (s : List String) : List String → Bool
  | [] => false
  | [v] => decide (v ∈ s)
  | v :: w :: rest =>
    decide (v ∈ s) && decide (w ∈ neighbors g v) && isWalkIn g s (w :: rest)

/-- `b` is reachable from `a` by a walk confined to `s`. -/
def ReachIn (g : Graph) (s : List String) (a b : String) : Prop :=
  ∃ p, isWalkIn g s p = true ∧ p.head? = some a ∧ p.getLast? = some b

lemma isWalkIn_mem {g : Graph} {s : List String} :
    ∀ {p : List String}, isWalkIn g s p = true → ∀ x ∈ p, x ∈ s := by
  intro p
  induction p with
  | nil => intro h; exact absurd h (by simp [isWalkIn])
  | cons v rest ih =>
    intro h x hx
    match rest, h with
    | [], h =>
      rcases List.mem_singleton.mp hx with rfl
      simpa [isWalkIn] using h
    | w :: rest', h =>
      rw [isWalkIn] at h
      simp only [Bool.and_eq_true, decide_eq_true_eq] at h
      rcases List.mem_cons.mp hx with rfl | hx
      · exact h.1.1
      · exact ih (by simpa using h.2) x hx

lemma isWalkIn_append_edge {g : Graph} {s : List String} :
    ∀ {p : List String} {u w : String}, isWalkIn g s p = true →
      p.getLast? = some u → w ∈ neighbors g u → w ∈ s →
      isWalkIn g s (p ++ [w]) = true := by
  intro p
  induction p with
  | nil => intro u w h; exact absurd h (by simp [isWalkIn])
  | cons v rest ih =>
    intro u w h hlast hedge hws
    match rest, h, hlast with
    | [], h, hlast =>
      simp only [List.getLast?_singleton, Option.some_inj] at hlast
      subst hlast
      rw [List.singleton_append, isWalkIn]
      simp only [Bool.and_eq_true, decide_eq_true_eq]
      refine ⟨⟨by simpa [isWalkIn] using h, hedge⟩, by simpa [isWalkIn]⟩
    | x :: rest', h, hlast =>
      rw [isWalkIn] at h
      simp only [Bool.and_eq_true, decide_eq_true_eq] at h
      have hlast' : (x :: rest').getLast? = some u := by
        rw [← List.getLast?_cons_cons]
        exact hlast
      have := ih h.2 hlast' hedge hws
      rw [List.cons_append, List.cons_append, isWalkIn]
      simp only [Bool.and_eq_true, decide_eq_true_eq]
      exact ⟨⟨h.1.1, h.1.2⟩, by simpa using this⟩

lemma isWalkIn_closure {g : Graph} {s vis : List String}
    (hcl : ∀ x ∈ vis, ∀ w ∈ neighbors g x, w ∈ s → w ∈ vis) :
    ∀ {p : List String}, isWalkIn g s p = true →
      (∀ h0, p.head? = some h0 → h0 ∈ vis) → ∀ x ∈ p, x ∈ vis := by
  intro p
  induction p with
  | nil => intro h; exact absurd h (by simp [isWalkIn])
  | cons v rest ih =>
    intro h hhead x hx
    have hv : v ∈ vis := hhead v rfl
    match rest, h with
    | [], h =>
      rcases List.mem_singleton.mp hx with rfl
      exact hv
    | w :: rest', h =>
      rw [isWalkIn] at h
      simp only [Bool.and_eq_true, decide_eq_true_eq] at h
      have hw : w ∈ vis :=
        hcl v hv w h.1.2 (isWalkIn_mem (by simpa using h.2) w (List.mem_cons_self _ _))
      rcases List.mem_cons.mp hx with rfl | hx
      · exact hv
      · exact ih (by simpa using h.2) (fun h0 hh0 => by
          simp only [List.head?_cons, Option.some_inj] at hh0
          exact hh0 ▸ hw) x hx

/-- Split a list at the first occurrence of a member. -/
lemma mem_split_first {α : Type} {a : α} [DecidableEq α] :
    ∀ {l : List α}, a ∈ l → ∃ l1 l2, l = l1 ++ a :: l2 ∧ a ∉ l1 := by
  intro l
  induction l with
  | nil => intro h; exact absurd h (List.not_mem_nil a)
  | cons x xs ih =>
    intro h
    by_cases hx : x = a
    · exact ⟨[], xs, by simp [hx], List.not_mem_nil a⟩
    · rcases List.mem_cons.mp h with rfl | h'
      · exact absurd rfl hx
      · rcases ih h' with ⟨l1, l2, heq, hnm⟩
        refine ⟨x :: l1, l2, by simp [heq], ?_⟩
        intro hmem
        rcases List.mem_cons.mp hmem with rfl | hmem
        · exact hx rfl
        · exact hnm hmem

/-- In a walk `xs ++ y :: ys` with `xs ≠ []`, the last node of `xs` has an
edge to `y`. -/
lemma isWalkIn_middle_edge {g : Graph} {s : List String} :
    ∀ {xs : List String} {y : String} {ys : List String},
      isWalkIn g s (xs ++ y :: ys) = true → ∀ u, xs.getLast? = some u →
      y ∈ neighbors g u := by
  intro xs
  induction xs with
  | nil => intro y ys _ u hu; exact absurd hu (by simp)
  | cons v xs' ih =>
    intro y ys h u hu
    match xs', h, hu with
    | [], h, hu =>
      simp only [List.getLast?_singleton, Option.some_inj] at hu
      subst hu
      rw [List.cons_append, List.nil_append, isWalkIn] at h
      simp only [Bool.and_eq_true, decide_eq_true_eq] at h
      exact h.1.2
    | x :: xs'', h, hu =>
      rw [List.cons_append, List.cons_append, isWalkIn] at h
      simp only [Bool.and_eq_true, decide_eq_true_eq] at h
      have h2 : isWalkIn g s ((x :: xs'') ++ y :: ys) = true := by
        rw [List.cons_append]
        simpa using h.2
      refine ih h2 u ?_
      rw [← List.getLast?_cons_cons]
      exact hu

/-- A queue entry `(node, path)` is well formed: `path` is a walk confined to
the component from `start` to `node`, and is either the initial `[start]`
entry or has length ≥ 2. -/
def EntryOK (g : Graph) (scc : List String) (start : String)
    (e : String × List String) : Prop :=
  isWalkIn g scc e.2 = true ∧ e.2.head? = some start ∧
    e.2.getLast? = some e.1 ∧ (e.2 = [start] ∧ e.1 = start ∨ 2 ≤ e.2.length)

/-- The invariant of the breadth-first loop: well-formed queue entries over
visited nodes, a duplicate-free visited subset of the component containing
`start`, queue nodes enqueued at most once, and — for every visited node no
longer in the queue — its component neighbors are visited and it has no edge
back to `start` (else the loop would already have returned). -/
structure BfsInv (g : Graph) (scc : List String) (start : String)
    (q : List (String × List String)) (vis : List String) : Prop where
  entries : ∀ e ∈ q, EntryOK g scc start e ∧ e.1 ∈ vis
  visNodup : vis.Nodup
  visSub : ∀ x ∈ vis, x ∈ scc
  startVis : start ∈ vis
  qNodup : (q.map Prod.fst).Nodup
  procClosed : ∀ x ∈ vis, x ∉ q.map Prod.fst →
    (∀ w ∈ neighbors g x, w ∈ scc → w ∈ vis) ∧
    (x ≠ start → start ∉ neighbors g x)

lemma bfsScan_inl {scc : List String} {start : String} {path : List String} :
    ∀ {ns vis acc found}, bfsScan scc start path ns vis acc = Sum.inl found →
      found = path ++ [start] ∧ 2 ≤ path.length ∧ start ∈ ns := by
  intro ns
  induction ns with
  | nil => intro vis acc found h; exact absurd h (by simp [bfsScan])
  | cons n ns' ih =>
    intro vis acc found h
    rw [bfsScan] at h
    by_cases h1 : n ∈ scc
    · rw [if_pos h1] at h
      by_cases h2 : n = start ∧ path.length > 1
      · rw [if_pos h2] at h
        rcases h2 with ⟨rfl, hlen⟩
        exact ⟨(Sum.inl.inj h).symm, by omega, List.mem_cons_self _ _⟩
      · rw [if_neg h2] at h
        by_cases h3 : n ∉ vis
        · rw [if_pos h3] at h
          rcases ih h with ⟨hf, hl, hm⟩
          exact ⟨hf, hl, List.mem_cons_of_mem _ hm⟩
        · rw [if_neg h3] at h
          rcases ih h with ⟨hf, hl, hm⟩
          exact ⟨hf, hl, List.mem_cons_of_mem _ hm⟩
    · rw [if_neg h1] at h
      rcases ih h with ⟨hf, hl, hm⟩
      exact ⟨hf, hl, List.mem_cons_of_mem _ hm⟩

lemma bfsScan_inr {scc : List String} {start : String} {path : List String} :
    ∀ {ns vis acc vis' acc'},
      bfsScan scc start path ns vis acc = Sum.inr (vis', acc') →
      ∃ added, vis' = vis ++ added ∧
        acc' = acc ++ added.map (fun n => (n, path ++ [n])) ∧
        added.Nodup ∧ (∀ x ∈ added, x ∉ vis ∧ x ∈ scc ∧ x ∈ ns) ∧
        (start ∈ vis → ∀ w ∈ ns, w ∈ scc → w ∈ vis ++ added) ∧
        (2 ≤ path.length → start ∈ scc → start ∉ ns) := by
  intro ns
  induction ns with
  | nil =>
    intro vis acc vis' acc' h
    rw [bfsScan] at h
    rcases Sum.inr.inj h with heq
    refine ⟨[], ?_, ?_, List.nodup_nil, by simp, by simp, by simp⟩
    · rw [← (Prod.mk.injEq _ _ _ _).mp heq |>.1]; simp
    · rw [← (Prod.mk.injEq _ _ _ _).mp heq |>.2]; simp
  | cons n ns' ih =>
    intro vis acc vis' acc' h
    rw [bfsScan] at h
    by_cases h1 : n ∈ scc
    · rw [if_pos h1] at h
      by_cases h2 : n = start ∧ path.length > 1
      · rw [if_pos h2] at h
        exact absurd h (by simp)
      · rw [if_neg h2] at h
        by_cases h3 : n ∉ vis
        · rw [if_pos h3] at h
          rcases ih h with ⟨added', hv, ha, hnd, hcond, hclosure, hnostart⟩
          refine ⟨n :: added', by rw [hv]; simp, by rw [ha]; simp, ?_, ?_, ?_, ?_⟩
          · refine List.nodup_cons.mpr ⟨?_, hnd⟩
            intro hmem
            have := (hcond n hmem).1
            exact this (List.mem_append_right _ (List.mem_singleton.mpr rfl))
          · intro x hx
            rcases List.mem_cons.mp hx with rfl | hx
            · exact ⟨h3, h1, List.mem_cons_self _ _⟩
            · rcases hcond x hx with ⟨hxv, hxs, hxns⟩
              refine ⟨fun hc => hxv (List.mem_append_left _ hc),
                hxs, List.mem_cons_of_mem _ hxns⟩
          · intro hsv w hw hwscc
            rcases List.mem_cons.mp hw with rfl | hw
            · exact List.mem_append_right _ (List.mem_cons_self _ _)
            · have := hclosure (List.mem_append_left _ hsv) w hw hwscc
              rw [List.append_assoc] at this
              simpa using this
          · intro hlen hss hmem
            rcases List.mem_cons.mp hmem with heq | hmem
            · exact h2 ⟨heq.symm, by omega⟩
            · exact hnostart hlen hss hmem
        · rw [if_neg h3] at h
          rcases ih h with ⟨added', hv, ha, hnd, hcond, hclosure, hnostart⟩
          refine ⟨added', hv, ha, hnd, ?_, ?_, ?_⟩
          · intro x hx
            rcases hcond x hx with ⟨hxv, hxs, hxns⟩
            exact ⟨hxv, hxs, List.mem_cons_of_mem _ hxns⟩
          · intro hsv w hw hwscc
            rcases List.mem_cons.mp hw with rfl | hw
            · exact List.mem_append_left _ (by simpa using h3)
            · exact hclosure hsv w hw hwscc
          · intro hlen hss hmem
            rcases List.mem_cons.mp hmem with heq | hmem
            · exact h2 ⟨heq.symm, by omega⟩
            · exact hnostart hlen hss hmem
    · rw [if_neg h1] at h
      rcases ih h with ⟨added', hv, ha, hnd, hcond, hclosure, hnostart⟩
      refine ⟨added', hv, ha, hnd, ?_, ?_, ?_⟩
      · intro x hx
        rcases hcond x hx with ⟨hxv, hxs, hxns⟩
        exact ⟨hxv, hxs, List.mem_cons_of_mem _ hxns⟩
      · intro hsv w hw hwscc
        rcases List.mem_cons.mp hw with rfl | hw
        · exact absurd hwscc h1
        · exact hclosure hsv w hw hwscc
      · intro hlen hss hmem
        rcases List.mem_cons.mp hmem with heq | hmem
        · exact h1 (heq ▸ hss)
        · exact hnostart hlen hss hmem

lemma getLast?_mem {α : Type} : ∀ {l : List α} {a : α}, l.getLast? = some a → a ∈ l := by
  intro l
  induction l with
  | nil => intro a h; exact absurd h (by simp)
  | cons x xs ih =>
    intro a h
    cases xs with
    | nil =>
      rw [List.getLast?_singleton, Option.some_inj] at h
      exact h ▸ List.mem_singleton.mpr rfl
    | cons y ys =>
      rw [List.getLast?_cons_cons] at h
      exact List.mem_cons_of_mem _ (ih h)

lemma getLast?_of_ne_nil {α : Type} : ∀ {l : List α}, l ≠ [] →
    ∃ a, l.getLast? = some a := by
  intro l
  induction l with
  | nil => intro h; exact absurd rfl h
  | cons x xs ih =>
    intro _
    cases xs with
    | nil => exact ⟨x, rfl⟩
    | cons y ys =>
      rcases ih (by simp) with ⟨a, ha⟩
      exact ⟨a, by rw [List.getLast?_cons_cons]; exact ha⟩

lemma exists_ne_mem {l : List String} (hlen : 2 ≤ l.length) (hnd : l.Nodup)
    (a : String) : ∃ b ∈ l, b ≠ a := by
  match l, hlen, hnd with
  | x :: y :: rest, _, hnd =>
    have hxy : x ≠ y := by
      have h := List.nodup_cons.mp hnd
      exact fun heq => h.1 (heq ▸ List.mem_cons_self _ _)
    by_cases hx : x = a
    · refine ⟨y, List.mem_cons_of_mem _ (List.mem_cons_self _ _), ?_⟩
      intro hy
      exact hxy (by rw [hx, hy])
    · exact ⟨x, List.mem_cons_self _ _, hx⟩

lemma bfs_empty_absurd {g : Graph} {scc : List String} {start : String}
    {vis : List String}
    (hlen : 2 ≤ scc.length) (hnd : scc.Nodup) (hstart : start ∈ scc)
    (hreach : ∀ a ∈ scc, ∀ b ∈ scc, ReachIn g scc a b)
    (hinv : BfsInv g scc start [] vis) : False := by
  have hcl : ∀ x ∈ vis, ∀ w ∈ neighbors g x, w ∈ scc → w ∈ vis :=
    fun x hx => (hinv.procClosed x hx (by simp)).1
  have hnostart : ∀ x ∈ vis, x ≠ start → start ∉ neighbors g x :=
    fun x hx => (hinv.procClosed x hx (by simp)).2
  obtain ⟨b, hb, hbne⟩ := exists_ne_mem hlen hnd start
  obtain ⟨p0, hp0w, hp0h, hp0l⟩ := hreach start hstart b hb
  have hbvis : b ∈ vis := by
    refine isWalkIn_closure hcl hp0w ?_ b (getLast?_mem hp0l)
    intro h0 hh0
    rw [hp0h, Option.some_inj] at hh0
    exact hh0 ▸ hinv.startVis
  obtain ⟨p1, hp1w, hp1h, hp1l⟩ := hreach b hb start hstart
  have hallvis : ∀ x ∈ p1, x ∈ vis := by
    refine isWalkIn_closure hcl hp1w ?_
    intro h0 hh0
    rw [hp1h, Option.some_inj] at hh0
    exact hh0 ▸ hbvis
  obtain ⟨l1, l2, hsplit, hnm⟩ := mem_split_first (getLast?_mem hp1l)
  have hl1ne : l1 ≠ [] := by
    intro h
    rw [h, List.nil_append] at hsplit
    rw [hsplit, List.head?_cons, Option.some_inj] at hp1h
    exact hbne hp1h.symm
  obtain ⟨u, hu⟩ := getLast?_of_ne_nil hl1ne
  have hedge : start ∈ neighbors g u :=
    isWalkIn_middle_edge (hsplit ▸ hp1w) u hu
  have humem : u ∈ l1 := getLast?_mem hu
  have huvis : u ∈ vis :=
    hallvis u (hsplit ▸ List.mem_append_left _ humem)
  exact hnostart u huvis (fun h => hnm (h ▸ humem)) hedge

lemma vis_length_le {scc vis : List String}
    (hvnd : vis.Nodup) (hsub : ∀ x ∈ vis, x ∈ scc) :
    vis.length ≤ scc.length :=
  (List.subperm_of_subset hvnd hsub).length_le

lemma bfsLoop_good {g : Graph} {scc : List String} {start : String}
    (hlen : 2 ≤ scc.length) (hnd : scc.Nodup) (hstart : start ∈ scc)
    (hreach : ∀ a ∈ scc, ∀ b ∈ scc, ReachIn g scc a b) :
    ∀ (fuel : Nat) (q : List (String × List String)) (vis : List String),
      BfsInv g scc start q vis →
      scc.length + q.length ≤ fuel + vis.length →
      isWalkIn g scc (bfsLoop g scc start fuel q vis) = true ∧
      (bfsLoop g scc start fuel q vis).head? = some start ∧
      (bfsLoop g scc start fuel q vis).getLast? = some start ∧
      3 ≤ (bfsLoop g scc start fuel q vis).length := by
  intro fuel
  induction fuel with
  | zero =>
    intro q vis hinv hfuel
    exfalso
    have hvl := vis_length_le hinv.visNodup hinv.visSub
    have hq : q = [] := by
      have : q.length = 0 := by omega
      exact List.length_eq_zero.mp this
    exact bfs_empty_absurd hlen hnd hstart hreach (hq ▸ hinv)
  | succ f ih =>
    intro q vis hinv hfuel
    match q with
    | [] => exact absurd (bfs_empty_absurd hlen hnd hstart hreach hinv) id
    | (node, path) :: rest =>
      rcases hinv.entries (node, path) (List.mem_cons_self _ _) with ⟨hentry, hnodevis⟩
      rcases hentry with ⟨hpw, hph, hpl, hpdisj⟩
      have hpathne : path ≠ [] := by
        intro h
        rw [h] at hph
        exact absurd hph (by simp)
      cases hscan : bfsScan scc start path (neighbors g node) vis [] with
      | inl found =>
        have hres : bfsLoop g scc start (f + 1) ((node, path) :: rest) vis = found := by
          rw [bfsLoop, hscan]
        rcases bfsScan_inl hscan with ⟨hfound, hplen, hsn⟩
        rw [hres, hfound]
        have hwalk : isWalkIn g scc (path ++ [start]) = true :=
          isWalkIn_append_edge hpw hpl hsn hstart
        match path, hph, hplen with
        | a :: t, hph, hplen =>
          rw [List.head?_cons, Option.some_inj] at hph
          subst hph
          refine ⟨hwalk, by rw [List.cons_append, List.head?_cons], ?_, ?_⟩
          · rw [List.getLast?_concat]
          · simp only [List.length_cons] at hplen
            simp only [List.length_append, List.length_cons, List.length_nil]
            omega
      | inr out =>
        match out, hscan with
        | (vis', newE), hscan =>
        have hres : bfsLoop g scc start (f + 1) ((node, path) :: rest) vis =
            bfsLoop g scc start f (rest ++ newE) vis' := by
          rw [bfsLoop, hscan]
        rw [hres]
        rcases bfsScan_inr hscan with
          ⟨added, hva, hacc, hand, hcond, hclosure, hnostart⟩
        rw [List.nil_append] at hacc
        have haddvis : ∀ x ∈ added, x ∈ vis' := by
          intro x hx
          rw [hva]
          exact List.mem_append_right _ hx
        have hvissub : ∀ x ∈ vis, x ∈ vis' := by
          intro x hx
          rw [hva]
          exact List.mem_append_left _ hx
        have hrestnodes : ∀ e ∈ rest, e.1 ∈ vis :=
          fun e he => (hinv.entries e (List.mem_cons_of_mem _ he)).2
        have hqmapnodup := hinv.qNodup
        rw [List.map_cons] at hqmapnodup
        have hrestmapnodup : (rest.map Prod.fst).Nodup :=
          (List.nodup_cons.mp hqmapnodup).2
        have hnodenotrest : node ∉ rest.map Prod.fst :=
          (List.nodup_cons.mp hqmapnodup).1
        have hnewmap : newE.map Prod.fst = added := by
          rw [hacc, List.map_map]
          exact List.map_id' added
        have hinv' : BfsInv g scc start (rest ++ newE) vis' := by
          refine ⟨?_, ?_, ?_, hvissub start hinv.startVis, ?_, ?_⟩
          · intro e he
            rcases List.mem_append.mp he with he | he
            · rcases hinv.entries e (List.mem_cons_of_mem _ he) with ⟨hok, hv⟩
              exact ⟨hok, hvissub _ hv⟩
            · rw [hacc] at he
              rcases List.mem_map.mp he with ⟨n, hn, rfl⟩
              rcases hcond n hn with ⟨hnv, hns, hnn⟩
              refine ⟨⟨isWalkIn_append_edge hpw hpl hnn hns, ?_, ?_, ?_⟩,
                haddvis n hn⟩
              · match path, hph, hpathne with
                | a :: t, hph, _ => rw [List.cons_append, List.head?_cons]; exact hph
              · rw [List.getLast?_concat]
              · right
                match path, hpathne with
                | a :: t, _ =>
                  simp only [List.length_append, List.length_cons,
                    List.length_singleton]
                  omega
          · rw [hva, List.nodup_append]
            refine ⟨hinv.visNodup, hand, ?_⟩
            intro x hx hxa
            exact (hcond x hxa).1 hx
          · intro x hx
            rw [hva] at hx
            rcases List.mem_append.mp hx with hx | hx
            · exact hinv.visSub x hx
            · exact (hcond x hx).2.1
          · rw [List.map_append, hnewmap, List.nodup_append]
            refine ⟨hrestmapnodup, hand, ?_⟩
            intro x hx hxa
            rcases List.mem_map.mp hx with ⟨e, he, rfl⟩
            exact (hcond e.1 hxa).1 (hrestnodes e he)
          · intro x hx hxq
            rw [List.map_append, hnewmap] at hxq
            have hxadded : x ∉ added :=
              fun h => hxq (List.mem_append_right _ h)
            have hxrest : x ∉ rest.map Prod.fst :=
              fun h => hxq (List.mem_append_left _ h)
            have hxvis : x ∈ vis := by
              rw [hva] at hx
              rcases List.mem_append.mp hx with hx | hx
              · exact hx
              · exact absurd hx hxadded
            by_cases hxnode : x = node
            · subst hxnode
              constructor
              · intro w hw hwscc
                rw [hva]
                exact hclosure hinv.startVis w hw hwscc
              · intro hne
                rcases hpdisj with ⟨-, heq⟩ | hlen2
                · exact absurd heq hne
                · exact hnostart hlen2 hstart
            · have hxq0 : x ∉ ((node, path) :: rest).map Prod.fst := by
                rw [List.map_cons]
                intro h
                rcases List.mem_cons.mp h with h | h
                · exact hxnode h
                · exact hxrest h
              rcases hinv.procClosed x hxvis hxq0 with ⟨hc, hns⟩
              exact ⟨fun w hw hwscc => hvissub w (hc w hw hwscc), hns⟩
        refine ih (rest ++ newE) vis' hinv' ?_
        have hlennew : newE.length = added.length := by
          rw [hacc, List.length_map]
        have hlenvis : vis'.length = vis.length + added.length := by
          rw [hva, List.length_append]
        simp only [List.length_append, List.length_cons] at hfuel ⊢
        omega

lemma not_nodup_of_closed {p : List String} {a : String}
    (hh : p.head? = some a) (hl : p.getLast? = some a) (h3 : 3 ≤ p.length) :
    ¬ p.Nodup := by
  match p, h3 with
  | x :: y :: rest, _ =>
    rw [List.head?_cons, Option.some_inj] at hh
    subst hh
    intro hnd
    rw [List.getLast?_cons_cons] at hl
    exact (List.nodup_cons.mp hnd).1 (getLast?_mem hl)

/-- C8: on a genuine strongly connected component of size ≥ 2 (each pair of
members mutually reachable by walks confined to the component), the
representative path is a true closed walk: it starts and ends at the first
member, every consecutive pair is a graph edge, every node on it is in the
component, and it is never the bare member-list fallback. -/
theorem find_cycle_path_closed_walk (g : Graph) (scc : List String)
    (hlen : 2 ≤ scc.length) (hnd : scc.Nodup)
    (hreach : ∀ a ∈ scc, ∀ b ∈ scc, ReachIn g scc a b) :
    isWalkIn g scc (findCyclePath g scc) = true ∧
    (findCyclePath g scc).head? = scc.head? ∧
    (findCyclePath g scc).getLast? = scc.head? ∧
    3 ≤ (findCyclePath g scc).length ∧
    findCyclePath g scc ≠ scc := by
  match scc, hlen, hnd, hreach with
  | start :: rest0, hlen, hnd, hreach =>
    have hres : findCyclePath g (start :: rest0) =
        bfsLoop g (start :: rest0) start ((start :: rest0).length + 1)
          [(start, [start])] [start] := rfl
    have hstart : start ∈ start :: rest0 := List.mem_cons_self _ _
    have hinv0 : BfsInv g (start :: rest0) start [(start, [start])] [start] := by
      refine ⟨?_, List.nodup_singleton _, ?_, List.mem_singleton.mpr rfl, ?_, ?_⟩
      · intro e he
        rcases List.mem_singleton.mp he with rfl
        exact ⟨⟨by simp [isWalkIn, hstart], rfl, rfl, Or.inl ⟨rfl, rfl⟩⟩,
          List.mem_singleton.mpr rfl⟩
      · intro x hx
        rcases List.mem_singleton.mp hx with rfl
        exact hstart
      · simp
      · intro x hx hq
        exfalso
        rcases List.mem_singleton.mp hx with rfl
        exact hq (by simp)
    have hgood := bfsLoop_good hlen hnd hstart hreach
      ((start :: rest0).length + 1) [(start, [start])] [start] hinv0
      (by simp only [List.length_cons, List.length_nil]; omega)
    rw [← hres] at hgood
    obtain ⟨hw, hh, hl, hlen3⟩ := hgood
    refine ⟨hw, by rw [hh]; rfl, by rw [hl]; rfl, hlen3, ?_⟩
    intro heq
    exact not_nodup_of_closed hh hl hlen3 (by rw [heq]; exact hnd)

/-- Witness: the two-cycle `a ↔ b`; the representative path is a closed walk
from `a` back to `a`. -/
theorem find_cycle_path_closed_walk_witness :
    isWalkIn [("a", ["b"]), ("b", ["a"])] ["a", "b"]
      (findCyclePath [("a", ["b"]), ("b", ["a"])] ["a", "b"]) = true ∧
    (findCyclePath [("a", ["b"]), ("b", ["a"])] ["a", "b"]).head? = some "a" ∧
    (findCyclePath [("a", ["b"]), ("b", ["a"])] ["a", "b"]).getLast? = some "a" ∧
    findCyclePath [("a", ["b"]), ("b", ["a"])] ["a", "b"] ≠ ["a", "b"] := by
  have hr : ∀ a ∈ ["a", "b"], ∀ b ∈ ["a", "b"],
      ReachIn [("a", ["b"]), ("b", ["a"])] ["a", "b"] a b := by
    intro a ha b hb
    rcases List.mem_cons.mp ha with rfl | ha
    · rcases List.mem_cons.mp hb with rfl | hb
      · exact ⟨["a"], by decide, rfl, rfl⟩
      · rcases List.mem_singleton.mp hb with rfl
        exact ⟨["a", "b"], by decide, rfl, rfl⟩
    · rcases List.mem_singleton.mp ha with rfl
      rcases List.mem_cons.mp hb with rfl | hb
      · exact ⟨["b", "a"], by decide, rfl, rfl⟩
      · rcases List.mem_singleton.mp hb with rfl
        exact ⟨["b"], by decide, rfl, rfl⟩
  have h := find_cycle_path_closed_walk [("a", ["b"]), ("b", ["a"])] ["a", "b"]
    (by decide) (by decide) hr
  exact ⟨h.1, h.2.1, h.2.2.1, h.2.2.2.2⟩

/-! ## Tarjan correctness: components are mutual-reachability classes

The partition proof above says nothing about which modules share a component.
This section proves the two remaining halves of Tarjan correctness — every
emitted component is strongly connected, and two mutually reachable keys are
never split across components — by threading reachability witnesses and
low-link bounds through the same contract induction.  It concludes that the
component set is determined by the graph as a mapping of sets, independent of
the adjacency-list enumeration order. -/

/-- `b` is reachable from `a` by a walk through the key set. -/
def Reaches (g : Graph) (a b : String) : Prop := ReachIn g (keysOf g) a b

lemma reaches_refl {g : Graph} {v : String} (hv : v ∈ keysOf g) :
    Reaches g v v :=
  ⟨[v], by simp [isWalkIn, hv], rfl, rfl⟩

lemma reaches_edge {g : Graph} {v w : String} (hv : v ∈ keysOf g)
    (hw : w ∈ neighbors g v) (hwk : w ∈ keysOf g) : Reaches g v w :=
  ⟨[v, w], by simp [isWalkIn, hv, hw, hwk], rfl, rfl⟩

lemma isWalkIn_glue {g : Graph} {s : List String} :
    ∀ {p : List String} {u : String} {q : List String},
      isWalkIn g s p = true → p.getLast? = some u → isWalkIn g s (u :: q) = true →
      isWalkIn g s (p ++ q) = true ∧ (p ++ q).getLast? = (u :: q).getLast? := by
  intro p
  induction p with
  | nil => intro u q h; exact absurd h (by simp [isWalkIn])
  | cons v rest ih =>
    intro u q h hlast hq
    match rest, h, hlast with
    | [], h, hlast =>
      simp only [List.getLast?_singleton, Option.some_inj] at hlast
      subst hlast
      exact ⟨by simpa using hq, by simp⟩
    | x :: rest', h, hlast =>
      rw [isWalkIn] at h
      simp only [Bool.and_eq_true, decide_eq_true_eq] at h
      have hlast' : (x :: rest').getLast? = some u := by
        rw [← List.getLast?_cons_cons]
        exact hlast
      obtain ⟨hw, hl⟩ := ih (by simpa using h.2) hlast' hq
      refine ⟨?_, ?_⟩
      · rw [List.cons_append, List.cons_append, isWalkIn]
        simp only [Bool.and_eq_true, decide_eq_true_eq]
        refine ⟨⟨h.1.1, h.1.2⟩, ?_⟩
        rw [List.cons_append] at hw
        simpa using hw
      · rw [List.cons_append, List.cons_append, List.getLast?_cons_cons]
        rw [List.cons_append] at hl
        exact hl

lemma reachIn_trans {g : Graph} {s : List String} {a b c : String}
    (h1 : ReachIn g s a b) (h2 : ReachIn g s b c) : ReachIn g s a c := by
  obtain ⟨p, hpw, hph, hpl⟩ := h1
  obtain ⟨q, hqw, hqh, hql⟩ := h2
  match q, hqw, hqh, hql with
  | [], _, hqh, _ => exact absurd hqh (by simp)
  | b' :: q', hqw, hqh, hql =>
    simp only [List.head?_cons, Option.some_inj] at hqh
    subst hqh
    obtain ⟨hw, hl⟩ := isWalkIn_glue hpw hpl hqw
    refine ⟨p ++ q', hw, ?_, ?_⟩
    · match p, hpw, hph with
      | a' :: p', _, hph =>
        simp only [List.head?_cons, Option.some_inj] at hph
        subst hph
        rw [List.cons_append]
        rfl
      | [], hpw, _ => exact absurd hpw (by simp [isWalkIn])
    · rw [hl]
      exact hql

lemma reaches_trans {g : Graph} {a b c : String} (h1 : Reaches g a b)
    (h2 : Reaches g b c) : Reaches g a c :=
  reachIn_trans h1 h2

/-- The reachability layer of the traversal invariant: low-links are bounded
by indices and witnessed by reachable on-stack nodes, emitted components are
nonempty and strongly connected, and every prefix of the emitted component
list is closed under graph edges. -/
structure TjReach (g : Graph) (s : TjState) : Prop where
  lowle : ∀ x ∈ s.stack, s.low x ≤ idxD s x
  lowreach : ∀ x ∈ s.stack, ∃ y, y ∈ s.stack ∧ s.idx y = some (s.low x) ∧
    Reaches g x y
  emitsc : ∀ c ∈ s.sccs, ∀ x ∈ c, ∀ y ∈ c, Reaches g x y
  emitclosed : ∀ k, ∀ x ∈ (s.sccs.take k).flatten, ∀ w ∈ neighbors g x,
    w ∈ (s.sccs.take k).flatten
  emitne : ∀ c ∈ s.sccs, c ≠ []

lemma initTjState_reach (g : Graph) : TjReach g initTjState := by
  refine ⟨?_, ?_, ?_, ?_, ?_⟩ <;> simp [initTjState]

lemma pushNode_reach {g : Graph} {s : TjState} {v : String} (hr : TjReach g s)
    (hinv : TjInv g s) (hnone : s.idx v = none) (hk : v ∈ keysOf g) :
    TjReach g (pushNode v s) := by
  have hvstk : v ∉ s.stack := by
    intro hmem
    have h1 : (s.idx v).isSome := (hinv.idxIff v).mpr (Or.inl hmem)
    rw [hnone] at h1
    exact absurd h1 (by simp)
  refine ⟨?_, ?_, ?_, ?_, ?_⟩
  · intro x hx
    rw [pushNode_stack, List.mem_cons] at hx
    rcases hx with rfl | hx
    · unfold idxD
      rw [pushNode_low, if_pos rfl, pushNode_idx, if_pos rfl]
      simp
    · have hxv : x ≠ v := fun h => hvstk (h ▸ hx)
      unfold idxD
      rw [pushNode_low, if_neg hxv, pushNode_idx, if_neg hxv]
      exact hr.lowle x hx
  · intro x hx
    rw [pushNode_stack, List.mem_cons] at hx
    rcases hx with rfl | hx
    · refine ⟨x, by rw [pushNode_stack]; exact List.mem_cons_self _ _, ?_,
        reaches_refl hk⟩
      rw [pushNode_idx, if_pos rfl, pushNode_low, if_pos rfl]
    · have hxv : x ≠ v := fun h => hvstk (h ▸ hx)
      obtain ⟨y, hy, hyi, hyr⟩ := hr.lowreach x hx
      have hyv : y ≠ v := fun h => hvstk (h ▸ hy)
      refine ⟨y, by rw [pushNode_stack]; exact List.mem_cons_of_mem _ hy, ?_, hyr⟩
      rw [pushNode_idx, if_neg hyv, pushNode_low, if_neg hxv]
      exact hyi
  · intro c hc0 x hx y hy
    exact hr.emitsc c hc0 x hx y hy
  · intro k x hx w hw
    exact hr.emitclosed k x hx w hw
  · exact hr.emitne

/-- The reachability layer of the `strongconnect` contract: the invariant is
kept; the call either leaves `v` on the stack or pops exactly back to the
entry stack with `lowlink[v]` equal to the entry counter; and every node the
call leaves on the stack above the entry stack is reachable from `v`, has all
its neighbors indexed, a low-link at least `lowlink[v]` and strictly below
its own index, a fresh index, and only on-stack edge targets of index at
least `lowlink[v]`. -/
structure SCout2 (g : Graph) (s : TjState) (v : String) (s' : TjState) : Prop where
  inv2 : TjReach g s'
  alt : v ∈ s'.stack ∨ (s'.stack = s.stack ∧ s'.low v = s.n)
  spre : ∃ pre, s'.stack = pre ++ s.stack ∧
    (∀ u ∈ pre, Reaches g v u) ∧
    (∀ u ∈ pre, ∀ w ∈ neighbors g u, (s'.idx w).isSome) ∧
    (∀ u ∈ pre, s'.low v ≤ s'.low u) ∧
    (∀ u ∈ pre, s'.low u < idxD s' u) ∧
    (∀ u ∈ pre, ∀ w ∈ neighbors g u, w ∈ s'.stack → s'.low v ≤ idxD s' w) ∧
    (∀ u ∈ pre, ∃ i, s'.idx u = some i ∧ s.n ≤ i)

/-- The reachability layer of the neighbor-loop contract, relative to the
loop's entry state. -/
structure VNout2 (g : Graph) (s : TjState) (v : String) (s' : TjState) : Prop where
  inv2 : TjReach g s'
  spre : ∃ pre, s'.stack = pre ++ s.stack ∧
    (∀ u ∈ pre, Reaches g v u) ∧
    (∀ u ∈ pre, ∀ w ∈ neighbors g u, (s'.idx w).isSome) ∧
    (∀ u ∈ pre, s'.low v ≤ s'.low u) ∧
    (∀ u ∈ pre, s'.low u < idxD s' u) ∧
    (∀ u ∈ pre, ∀ w ∈ neighbors g u, w ∈ s'.stack → s'.low v ≤ idxD s' w) ∧
    (∀ u ∈ pre, ∃ i, s'.idx u = some i ∧ s.n ≤ i)

/-- The reachability guarantee of `strongconnect` at a given fuel. -/
def SCstmt2 (fuel : Nat) : Prop :=
  ∀ (g : Graph) (v : String) (s : TjState), ClosedGraph g → TjInv g s →
    TjReach g s → v ∈ keysOf g → s.idx v = none → unidx g s ≤ fuel →
    SCout2 g s v (strongconnect g fuel v s)

/-- The reachability guarantee of the neighbor loop at a given fuel: besides
the loop contract, every processed neighbor ends up indexed, and if still on
the stack its index bounds `lowlink[v]` from above. -/
def VNstmt2 (fuel : Nat) : Prop :=
  ∀ (g : Graph) (v : String) (ws : List String) (s : TjState), ClosedGraph g →
    TjInv g s → TjReach g s → v ∈ s.stack → (∀ w ∈ ws, w ∈ neighbors g v) →
    unidx g s ≤ fuel →
    VNout2 g s v (visitNeighbors g fuel v ws s) ∧
    ∀ w ∈ ws, ((visitNeighbors g fuel v ws s).idx w).isSome ∧
      (w ∈ (visitNeighbors g fuel v ws s).stack →
        (visitNeighbors g fuel v ws s).low v ≤
          idxD (visitNeighbors g fuel v ws s) w)

lemma vnout2_id {g : Graph} (s : TjState) (v : String) (hr : TjReach g s) :
    VNout2 g s v s :=
  ⟨hr, ⟨[], rfl,
    fun u hu => absurd hu (List.not_mem_nil u),
    fun u hu => absurd hu (List.not_mem_nil u),
    fun u hu => absurd hu (List.not_mem_nil u),
    fun u hu => absurd hu (List.not_mem_nil u),
    fun u hu => absurd hu (List.not_mem_nil u),
    fun u hu => absurd hu (List.not_mem_nil u)⟩⟩

lemma vnout2_comp {g : Graph} {s s' s1 : TjState} {v : String}
    (hinv : TjInv g s) (hv : v ∈ s.stack)
    (ho1 : VNout g s v s') (ho2 : VNout g s' v s1)
    (h1 : VNout2 g s v s') (h2 : VNout2 g s' v s1) : VNout2 g s v s1 := by
  obtain ⟨p1, hp1, ha1, hb1, hc1, hd1, he1, hf1⟩ := h1.spre
  obtain ⟨p2, hp2, ha2, hb2, hc2, hd2, he2, hf2⟩ := h2.spre
  have hvidx : (s.idx v).isSome := (hinv.idxIff v).mpr (Or.inl hv)
  obtain ⟨iv, hiv⟩ := Option.isSome_iff_exists.mp hvidx
  have hivlt : iv < s.n := hinv.idxLt v iv hiv
  have hiv' : s'.idx v = some iv := ho1.idxext.1 v iv hiv
  have hne1 : ∀ u ∈ p1, u ≠ v := by
    intro u hu heq
    obtain ⟨i, hi, hgei⟩ := hf1 u hu
    rw [heq, hiv'] at hi
    have := Option.some_inj.mp hi
    omega
  refine ⟨h2.inv2, p2 ++ p1, by simp [hp2, hp1], ?_, ?_, ?_, ?_, ?_, ?_⟩
  · intro u hu
    rcases List.mem_append.mp hu with hu2 | hu1
    · exact ha2 u hu2
    · exact ha1 u hu1
  · intro u hu w hw
    rcases List.mem_append.mp hu with hu2 | hu1
    · exact hb2 u hu2 w hw
    · obtain ⟨j, hj⟩ := Option.isSome_iff_exists.mp (hb1 u hu1 w hw)
      rw [ho2.idxext.1 w j hj]
      rfl
  · intro u hu
    rcases List.mem_append.mp hu with hu2 | hu1
    · exact hc2 u hu2
    · obtain ⟨i, hi, hgei⟩ := hf1 u hu1
      have hfr : s1.low u = s'.low u := ho2.lowpres u (by rw [hi]; rfl) (hne1 u hu1)
      rw [hfr]
      exact le_trans ho2.lowle (hc1 u hu1)
  · intro u hu
    rcases List.mem_append.mp hu with hu2 | hu1
    · exact hd2 u hu2
    · obtain ⟨i, hi, hgei⟩ := hf1 u hu1
      have hfr : s1.low u = s'.low u := ho2.lowpres u (by rw [hi]; rfl) (hne1 u hu1)
      have hix : s1.idx u = some i := ho2.idxext.1 u i hi
      have hD : idxD s1 u = idxD s' u := by
        unfold idxD
        rw [hix, hi]
      rw [hfr, hD]
      exact hd1 u hu1
  · intro u hu w hw hws1
    rcases List.mem_append.mp hu with hu2 | hu1
    · exact he2 u hu2 w hw hws1
    · obtain ⟨j, hj⟩ := Option.isSome_iff_exists.mp (hb1 u hu1 w hw)
      have hjlt : j < s'.n := ho1.inv.idxLt w j hj
      have hj1 : s1.idx w = some j := ho2.idxext.1 w j hj
      have hws' : w ∈ s'.stack := by
        rw [hp2] at hws1
        rcases List.mem_append.mp hws1 with hwp | hws
        · obtain ⟨i, hi, hgei⟩ := hf2 w hwp
          rw [hj1] at hi
          have := Option.some_inj.mp hi
          omega
        · exact hws
      have hD : idxD s1 w = idxD s' w := by
        unfold idxD
        rw [hj1, hj]
      rw [hD]
      exact le_trans ho2.lowle (he1 u hu1 w hw hws')
  · intro u hu
    rcases List.mem_append.mp hu with hu2 | hu1
    · obtain ⟨i, hi, hgei⟩ := hf2 u hu2
      exact ⟨i, hi, le_trans ho1.idxext.2.1 hgei⟩
    · obtain ⟨i, hi, hgei⟩ := hf1 u hu1
      exact ⟨i, ho2.idxext.1 u i hi, hgei⟩

lemma SC_zero2 : SCstmt2 0 := by
  intro g v s hc hinv hr hv hnone hfuel
  exfalso
  have hmem : v ∈ (keysOf g).filter (fun k => (s.idx k).isNone) :=
    List.mem_filter.mpr ⟨hv, by simp [hnone]⟩
  have h0 : 0 < unidx g s := List.length_pos.mpr (List.ne_nil_of_mem hmem)
  omega

/-- The recursive branch of `visitOne` (`neighbor not in index`), stated for
any state that agrees with the recursion result except for the folded
`lowlink[v]`. -/
lemma lowfold_out2 {g : Graph} {v w : String} {s t s2 : TjState}
    (hinv : TjInv g s) (hr : TjReach g s)
    (hv : v ∈ s.stack) (hw : w ∈ neighbors g v) (hwk : w ∈ keysOf g)
    (hout : SCout g s w t) (hout2 : SCout2 g s w t)
    (hst : s2.stack = t.stack) (hidx : s2.idx = t.idx)
    (hsccs : s2.sccs = t.sccs)
    (hlow : ∀ u, s2.low u = if u = v then min (t.low v) (t.low w)
      else t.low u) :
    VNout2 g s v s2 ∧ (s2.idx w).isSome ∧
      (w ∈ s2.stack → s2.low v ≤ idxD s2 w) := by
  have hvidx : (s.idx v).isSome := (hinv.idxIff v).mpr (Or.inl hv)
  obtain ⟨iv, hiv⟩ := Option.isSome_iff_exists.mp hvidx
  have hivlt : iv < s.n := hinv.idxLt v iv hiv
  have hvk : v ∈ keysOf g := hinv.idxKeys v hvidx
  have hlowvs : s.low v ≤ iv := by
    have h0 := hr.lowle v hv
    unfold idxD at h0
    rw [hiv] at h0
    exact h0
  obtain ⟨pre, hpre, ha, hb, hcl, hd, he, hf⟩ := hout2.spre
  have htidxv : t.idx v = some iv := hout.idxext.1 v iv hiv
  have htlowv : t.low v = s.low v := hout.lowpres v hvidx
  have hvt : v ∈ t.stack := by
    rw [hpre]
    exact List.mem_append_right _ hv
  have hnev : ∀ u ∈ pre, u ≠ v := by
    intro u hu heq
    obtain ⟨i, hi, hgei⟩ := hf u hu
    rw [heq, htidxv] at hi
    have := Option.some_inj.mp hi
    omega
  have hreachvw : Reaches g v w := reaches_edge hvk hw hwk
  have hlow2v : s2.low v = min (t.low v) (t.low w) := by
    rw [hlow, if_pos rfl]
  have hidxD2 : ∀ x, idxD s2 x = idxD t x := by
    intro x
    unfold idxD
    rw [hidx]
  have htidxw : t.idx w = some s.n := hout.idxv
  refine ⟨⟨⟨?_, ?_, ?_, ?_, ?_⟩, ?_⟩, ?_, ?_⟩
  · intro x hx
    rw [hst] at hx
    rw [hidxD2]
    by_cases hxv : x = v
    · subst hxv
      rw [hlow2v]
      exact le_trans (min_le_left _ _) (hout2.inv2.lowle x hvt)
    · rw [hlow, if_neg hxv]
      exact hout2.inv2.lowle x hx
  · intro x hx
    rw [hst] at hx
    by_cases hxv : x = v
    · subst hxv
      rcases hout2.alt with hwt | ⟨hstkeq, hloww⟩
      · rcases le_total (t.low x) (t.low w) with hmle | hmle
        · obtain ⟨y, hy, hyi, hyr⟩ := hout2.inv2.lowreach x hvt
          refine ⟨y, by rw [hst]; exact hy, ?_, hyr⟩
          rw [hidx, hlow2v, min_eq_left hmle]
          exact hyi
        · obtain ⟨y, hy, hyi, hyr⟩ := hout2.inv2.lowreach w hwt
          refine ⟨y, by rw [hst]; exact hy, ?_, reaches_trans hreachvw hyr⟩
          rw [hidx, hlow2v, min_eq_right hmle]
          exact hyi
      · have hltm : t.low x ≤ t.low w := by
          rw [htlowv, hloww]
          omega
        obtain ⟨y, hy, hyi, hyr⟩ := hout2.inv2.lowreach x hvt
        refine ⟨y, by rw [hst]; exact hy, ?_, hyr⟩
        rw [hidx, hlow2v, min_eq_left hltm]
        exact hyi
    · obtain ⟨y, hy, hyi, hyr⟩ := hout2.inv2.lowreach x hx
      refine ⟨y, by rw [hst]; exact hy, ?_, hyr⟩
      rw [hidx, hlow, if_neg hxv]
      exact hyi
  · intro c hc0 x hx y hy
    rw [hsccs] at hc0
    exact hout2.inv2.emitsc c hc0 x hx y hy
  · intro k x hx w' hw'
    rw [hsccs] at hx ⊢
    exact hout2.inv2.emitclosed k x hx w' hw'
  · intro c hc0
    rw [hsccs] at hc0
    exact hout2.inv2.emitne c hc0
  · refine ⟨pre, by rw [hst, hpre], ?_, ?_, ?_, ?_, ?_, ?_⟩
    · intro u hu
      exact reaches_trans hreachvw (ha u hu)
    · intro u hu w' hw'
      rw [hidx]
      exact hb u hu w' hw'
    · intro u hu
      calc s2.low v ≤ t.low w := by
            rw [hlow2v]
            exact min_le_right _ _
        _ ≤ t.low u := hcl u hu
        _ = s2.low u := by rw [hlow, if_neg (hnev u hu)]
    · intro u hu
      rw [hlow, if_neg (hnev u hu), hidxD2]
      exact hd u hu
    · intro u hu w' hw' hw's
      rw [hst] at hw's
      rw [hidxD2]
      calc s2.low v ≤ t.low w := by
            rw [hlow2v]
            exact min_le_right _ _
        _ ≤ idxD t w' := he u hu w' hw' hw's
    · intro u hu
      obtain ⟨i, hi, hgei⟩ := hf u hu
      exact ⟨i, by rw [hidx]; exact hi, hgei⟩
  · rw [hidx, htidxw]
    rfl
  · intro hws
    rw [hst] at hws
    rw [hidxD2, hlow2v]
    exact le_trans (min_le_right _ _) (hout2.inv2.lowle w hws)

/-- The on-stack branch of `visitOne` (`neighbor in on_stack`), stated for
any state that agrees with the entry state except for the folded
`lowlink[v]`. -/
lemma lowidx_out2 {g : Graph} {v w : String} {s s2 : TjState}
    (hinv : TjInv g s) (hr : TjReach g s)
    (hv : v ∈ s.stack) (hw : w ∈ neighbors g v) (hwk : w ∈ keysOf g)
    (hwidx : (s.idx w).isSome) (hwstk : s.onStk w = true)
    (hst : s2.stack = s.stack) (hidx : s2.idx = s.idx) (hsccs : s2.sccs = s.sccs)
    (hlow : ∀ u, s2.low u = if u = v then min (s.low v) (idxD s w)
      else s.low u) :
    VNout2 g s v s2 ∧ (s2.idx w).isSome ∧
      (w ∈ s2.stack → s2.low v ≤ idxD s2 w) := by
  have hvidx : (s.idx v).isSome := (hinv.idxIff v).mpr (Or.inl hv)
  have hvk : v ∈ keysOf g := hinv.idxKeys v hvidx
  obtain ⟨j, hj⟩ := Option.isSome_iff_exists.mp hwidx
  have hws : w ∈ s.stack := (hinv.onStkIff w).mp hwstk
  have hreachvw : Reaches g v w := reaches_edge hvk hw hwk
  have hlow2v : s2.low v = min (s.low v) (idxD s w) := by
    rw [hlow, if_pos rfl]
  have hidxD2 : ∀ x, idxD s2 x = idxD s x := by
    intro x
    unfold idxD
    rw [hidx]
  refine ⟨⟨⟨?_, ?_, ?_, ?_, ?_⟩, ?_⟩, ?_, ?_⟩
  · intro x hx
    rw [hst] at hx
    rw [hidxD2]
    by_cases hxv : x = v
    · subst hxv
      rw [hlow2v]
      exact le_trans (min_le_left _ _) (hr.lowle x hx)
    · rw [hlow, if_neg hxv]
      exact hr.lowle x hx
  · intro x hx
    rw [hst] at hx
    by_cases hxv : x = v
    · subst hxv
      rcases le_total (s.low x) (idxD s w) with hmle | hmle
      · obtain ⟨y, hy, hyi, hyr⟩ := hr.lowreach x hx
        refine ⟨y, by rw [hst]; exact hy, ?_, hyr⟩
        rw [hidx, hlow2v, min_eq_left hmle]
        exact hyi
      · refine ⟨w, by rw [hst]; exact hws, ?_, hreachvw⟩
        rw [hidx, hlow2v, min_eq_right hmle]
        unfold idxD
        rw [hj]
        rfl
    · obtain ⟨y, hy, hyi, hyr⟩ := hr.lowreach x hx
      refine ⟨y, by rw [hst]; exact hy, ?_, hyr⟩
      rw [hidx, hlow, if_neg hxv]
      exact hyi
  · intro c hc0 x hx y hy
    rw [hsccs] at hc0
    exact hr.emitsc c hc0 x hx y hy
  · intro k x hx w' hw'
    rw [hsccs] at hx ⊢
    exact hr.emitclosed k x hx w' hw'
  · intro c hc0
    rw [hsccs] at hc0
    exact hr.emitne c hc0
  · refine ⟨[], by rw [hst]; rfl, ?_, ?_, ?_, ?_, ?_, ?_⟩ <;>
      exact fun u hu => absurd hu (List.not_mem_nil u)
  · rw [hidx]
    exact hwidx
  · intro hws2
    rw [hidxD2, hlow2v]
    exact min_le_right _ _

lemma visitOne_out2 {fuel : Nat} (hSC : SCstmt fuel) (hSC2 : SCstmt2 fuel)
    {g : Graph} {v w : String} {s : TjState} (hc : ClosedGraph g)
    (hinv : TjInv g s) (hr : TjReach g s) (hv : v ∈ s.stack)
    (hw : w ∈ neighbors g v) (hfuel : unidx g s ≤ fuel) :
    VNout2 g s v (visitOne g fuel v w s) ∧
      ((visitOne g fuel v w s).idx w).isSome ∧
      (w ∈ (visitOne g fuel v w s).stack →
        (visitOne g fuel v w s).low v ≤ idxD (visitOne g fuel v w s) w) := by
  have hwk : w ∈ keysOf g := neighbors_sub_keys hc v w hw
  by_cases hnone : (s.idx w).isNone
  · have hnone' : s.idx w = none := Option.isNone_iff_eq_none.mp hnone
    have hout := hSC g w s hc hinv hwk hnone' hfuel
    have hout2 := hSC2 g w s hc hinv hr hwk hnone' hfuel
    have hres : visitOne g fuel v w s =
        { strongconnect g fuel w s with
          low := fun u => if u = v then
              min ((strongconnect g fuel w s).low v)
                ((strongconnect g fuel w s).low w)
            else (strongconnect g fuel w s).low u } := by
      rw [visitOne, if_pos hnone]
    rw [hres]
    exact lowfold_out2 hinv hr hv hw hwk hout hout2 rfl rfl rfl (fun u => rfl)
  · have hwidx : (s.idx w).isSome := by
      cases hsome : s.idx w with
      | none => exact absurd (by rw [hsome]; rfl) hnone
      | some i => rfl
    by_cases hstk : s.onStk w = true
    · have hres : visitOne g fuel v w s =
          { s with low := fun u =>
              if u = v then min (s.low v) (idxD s w) else s.low u } := by
        rw [visitOne, if_neg hnone, if_pos hstk]
      rw [hres]
      exact lowidx_out2 hinv hr hv hw hwk hwidx hstk rfl rfl rfl (fun u => rfl)
    · have hres : visitOne g fuel v w s = s := by
        rw [visitOne, if_neg hnone, if_neg hstk]
      rw [hres]
      refine ⟨vnout2_id s v hr, hwidx, ?_⟩
      intro hmem
      exact absurd ((hinv.onStkIff w).mpr hmem) hstk

lemma VN_step2 (fuel : Nat) (hSC2 : SCstmt2 fuel) : VNstmt2 fuel := by
  intro g v ws
  induction ws with
  | nil =>
    intro s hc hinv hr hv hws hfuel
    rw [visitNeighbors]
    exact ⟨vnout2_id s v hr, by simp⟩
  | cons w ws' ih =>
    intro s hc hinv hr hv hws hfuel
    rw [visitNeighbors]
    have hSC : SCstmt fuel := (tarjan_contracts fuel).1
    have hostep := visitOne_out hSC hc hinv hv
      (neighbors_sub_keys hc v w (hws w (List.mem_cons_self _ _))) hfuel
    have hstep := visitOne_out2 hSC hSC2 hc hinv hr hv
      (hws w (List.mem_cons_self _ _)) hfuel
    set s1 := visitOne g fuel v w s with hs1
    have hv1 : v ∈ s1.stack := by
      rcases hostep.stackext with ⟨p, hp, -⟩
      rw [hp]
      exact List.mem_append_right _ hv
    have hfuel1 : unidx g s1 ≤ fuel := le_trans (unidx_mono hostep.idxext.1) hfuel
    have honext := (tarjan_contracts fuel).2 g v ws' s1 hc hostep.inv hv1
      (fun x hx => neighbors_sub_keys hc v x (hws x (List.mem_cons_of_mem _ hx)))
      hfuel1
    have hnext := ih s1 hc hostep.inv hstep.1.inv2 hv1
      (fun x hx => hws x (List.mem_cons_of_mem _ hx)) hfuel1
    set s2 := visitNeighbors g fuel v ws' s1 with hs2
    refine ⟨vnout2_comp hinv hv hostep honext hstep.1 hnext.1, ?_⟩
    intro x hx
    rcases List.mem_cons.mp hx with rfl | hx'
    · obtain ⟨j, hj⟩ := Option.isSome_iff_exists.mp hstep.2.1
      have hj2 : s2.idx x = some j := honext.idxext.1 x j hj
      refine ⟨by rw [hj2]; rfl, ?_⟩
      intro hxs2
      obtain ⟨p2, hp2, hp2f⟩ := honext.stackext
      have hjlt : j < s1.n := hostep.inv.idxLt x j hj
      have hxs1 : x ∈ s1.stack := by
        rw [hp2] at hxs2
        rcases List.mem_append.mp hxs2 with hxp | hxs
        · obtain ⟨i, hi, hgei⟩ := hp2f x hxp
          rw [hj2] at hi
          have := Option.some_inj.mp hi
          omega
        · exact hxs
      have hb1 := hstep.2.2 hxs1
      have hidxeq : idxD s2 x = idxD s1 x := by
        unfold idxD
        rw [hj2, hj]
      rw [hidxeq]
      exact le_trans honext.lowle hb1
    · exact hnext.2 x hx'

lemma SC_step2 (fuel : Nat) (hVN2 : VNstmt2 fuel) : SCstmt2 (fuel + 1) := by
  intro g v s hc hinv hr hv hnone hfuel
  have hres : strongconnect g (fuel + 1) v s =
      rootCheck v (visitNeighbors g fuel v (neighbors g v) (pushNode v s)) := by
    rw [strongconnect]
  rw [hres]
  have hvnstk : v ∉ s.stack := by
    intro hmem
    have h1 : (s.idx v).isSome := (hinv.idxIff v).mpr (Or.inl hmem)
    rw [hnone] at h1
    exact absurd h1 (by simp)
  have hinv0 : TjInv g (pushNode v s) := pushNode_inv hinv hnone hv
  have hr0 : TjReach g (pushNode v s) := pushNode_reach hr hinv hnone hv
  have hidx0 : IdxExt s (pushNode v s) := pushNode_idxExt hnone
  have hidxv0 : (pushNode v s).idx v = some s.n := by
    rw [pushNode_idx, if_pos rfl]
  have hu0 : unidx g (pushNode v s) ≤ fuel := by
    have hlt := unidx_strict hv hnone (by rw [hidxv0]; rfl) hidx0.1
    omega
  have hv0 : v ∈ (pushNode v s).stack := by
    rw [pushNode_stack]
    exact List.mem_cons_self _ _
  have hovn := (tarjan_contracts fuel).2 g v (neighbors g v) (pushNode v s) hc
    hinv0 hv0 (fun w hw => neighbors_sub_keys hc v w hw) hu0
  have hvn2 := hVN2 g v (neighbors g v) (pushNode v s) hc hinv0 hr0 hv0
    (fun w hw => hw) hu0
  set s1 := visitNeighbors g fuel v (neighbors g v) (pushNode v s) with hs1
  obtain ⟨pre, hpre, ha, hb, hcl, hd, he, hf⟩ := hvn2.1.spre
  have hstk1 : s1.stack = pre ++ v :: s.stack := by
    rw [hpre, pushNode_stack]
  have hidxv1 : s1.idx v = some s.n := hovn.idxext.1 v s.n hidxv0
  have hidxs1 : IdxExt s s1 := idxExt_comp hidx0 hovn.idxext
  have hlowv0 : (pushNode v s).low v = s.n := by
    rw [pushNode_low, if_pos rfl]
  have hlow1le : s1.low v ≤ s.n := hlowv0 ▸ hovn.lowle
  have hidxD1 : idxD s1 v = s.n := by
    unfold idxD
    rw [hidxv1]
    rfl
  have hvnotpre : v ∉ pre := by
    intro hvp
    obtain ⟨i, hi, hgei⟩ := hf v hvp
    rw [hidxv1] at hi
    have := Option.some_inj.mp hi
    rw [pushNode_n] at hgei
    omega
  have hentryidx : ∀ x ∈ s.stack, ∃ i, s1.idx x = some i ∧ i < s.n := by
    intro x hx
    have hxi : (s.idx x).isSome := (hinv.idxIff x).mpr (Or.inl hx)
    obtain ⟨i, hi⟩ := Option.isSome_iff_exists.mp hxi
    exact ⟨i, hidxs1.1 x i hi, hinv.idxLt x i hi⟩
  have hlowpres1 : ∀ x, (s.idx x).isSome → x ≠ v → s1.low x = s.low x := by
    intro x hxi hxv
    have h0 : ((pushNode v s).idx x).isSome := by
      obtain ⟨i, hi⟩ := Option.isSome_iff_exists.mp hxi
      rw [hidx0.1 x i hi]
      rfl
    rw [hovn.lowpres x h0 hxv, pushNode_low, if_neg hxv]
  unfold rootCheck
  by_cases hcond : s1.low v = idxD s1 v
  · rw [if_pos hcond]
    have hlow1 : s1.low v = s.n := by
      rw [hcond]
      exact hidxD1
    rcases popRoot_preserve hovn.inv hstk1 with ⟨hinvp, hstkp, hidxp, hlowp, hnp, -⟩
    have hpop : popWhile v s1.stack = (pre ++ [v], s.stack) := by
      rw [hstk1]
      exact popWhile_spec hvnotpre
    have hsccsp : (popRoot v s1).sccs = s1.sccs ++ [pre ++ [v]] := by
      unfold popRoot
      rw [hpop]
    set s2 := popRoot v s1 with hs2
    have hRva : ∀ u ∈ pre ++ [v], Reaches g v u := by
      intro u hu
      rcases List.mem_append.mp hu with hu | hu
      · exact ha u hu
      · rcases List.mem_singleton.mp hu with rfl
        exact reaches_refl hv
    have hRav : ∀ n0, ∀ u ∈ pre ++ [v], idxD s1 u ≤ n0 → Reaches g u v := by
      intro n0
      induction n0 with
      | zero =>
        intro u hu hle
        rcases List.mem_append.mp hu with hup | huv
        · exfalso
          obtain ⟨i, hi, hgei⟩ := hf u hup
          rw [pushNode_n] at hgei
          have hD : idxD s1 u = i := by
            unfold idxD
            rw [hi]
            rfl
          omega
        · rcases List.mem_singleton.mp huv with rfl
          exact reaches_refl hv
      | succ k ihk =>
        intro u hu hle
        rcases List.mem_append.mp hu with hup | huv
        · have hus1 : u ∈ s1.stack := by
            rw [hstk1]
            exact List.mem_append_left _ hup
          obtain ⟨y, hy, hyi, hyr⟩ := hvn2.1.inv2.lowreach u hus1
          have hlowu : s.n ≤ s1.low u := by
            rw [← hlow1]
            exact hcl u hup
          have hyC : y ∈ pre ++ [v] := by
            rw [hstk1] at hy
            rcases List.mem_append.mp hy with hyp | hyv
            · exact List.mem_append_left _ hyp
            · rcases List.mem_cons.mp hyv with rfl | hys
              · exact List.mem_append_right _ (List.mem_singleton_self _)
              · exfalso
                obtain ⟨i, hi, hilt⟩ := hentryidx y hys
                rw [hyi] at hi
                have := Option.some_inj.mp hi
                omega
          have hyidx : idxD s1 y = s1.low u := by
            unfold idxD
            rw [hyi]
            rfl
          have hulow : s1.low u < idxD s1 u := hd u hup
          have hyle : idxD s1 y ≤ k := by omega
          exact reaches_trans hyr (ihk y hyC hyle)
        · rcases List.mem_singleton.mp huv with rfl
          exact reaches_refl hv
    have hCfin : ∀ u ∈ pre ++ [v], ∀ w ∈ neighbors g u, (s1.idx w).isSome := by
      intro u hu w hw
      rcases List.mem_append.mp hu with hup | huv
      · exact hb u hup w hw
      · rcases List.mem_singleton.mp huv with rfl
        exact (hvn2.2 w hw).1
    have hCclosed : ∀ u ∈ pre ++ [v], ∀ w ∈ neighbors g u,
        w ∈ sccNodes s1 ∨ w ∈ pre ++ [v] := by
      intro u hu w hw
      have hwi := hCfin u hu w hw
      rcases (hovn.inv.idxIff w).mp hwi with hws | hwscc
      · have hws0 := hws
        rw [hstk1] at hws
        rcases List.mem_append.mp hws with hwp | hwv
        · exact Or.inr (List.mem_append_left _ hwp)
        · rcases List.mem_cons.mp hwv with rfl | hwent
          · exact Or.inr (List.mem_append_right _ (List.mem_singleton_self _))
          · exfalso
            have hbd : s1.low v ≤ idxD s1 w := by
              rcases List.mem_append.mp hu with hup | huv
              · exact he u hup w hw hws0
              · rcases List.mem_singleton.mp huv with rfl
                exact (hvn2.2 w hw).2 hws0
            obtain ⟨i, hi, hilt⟩ := hentryidx w hwent
            have hieq : idxD s1 w = i := by
              unfold idxD
              rw [hi]
              rfl
            rw [hlow1] at hbd
            omega
      · exact Or.inl hwscc
    have hr2 : TjReach g s2 := by
      refine ⟨?_, ?_, ?_, ?_, ?_⟩
      · intro x hx
        rw [hstkp] at hx
        have hxi : (s.idx x).isSome := (hinv.idxIff x).mpr (Or.inl hx)
        have hxv : x ≠ v := fun h => hvnstk (h ▸ hx)
        obtain ⟨i, hi⟩ := Option.isSome_iff_exists.mp hxi
        have hlx : s2.low x = s.low x := by
          rw [hlowp]
          exact hlowpres1 x hxi hxv
        have hix : s2.idx x = some i := by
          rw [hidxp]
          exact hidxs1.1 x i hi
        have hixD : idxD s2 x = idxD s x := by
          unfold idxD
          rw [hix, hi]
        rw [hlx, hixD]
        exact hr.lowle x hx
      · intro x hx
        rw [hstkp] at hx
        have hxi : (s.idx x).isSome := (hinv.idxIff x).mpr (Or.inl hx)
        have hxv : x ≠ v := fun h => hvnstk (h ▸ hx)
        obtain ⟨y, hy, hyi, hyr⟩ := hr.lowreach x hx
        refine ⟨y, by rw [hstkp]; exact hy, ?_, hyr⟩
        have hlx : s2.low x = s.low x := by
          rw [hlowp]
          exact hlowpres1 x hxi hxv
        rw [hidxp, hlx]
        exact hidxs1.1 y (s.low x) hyi
      · intro c hc0 x hx y hy
        rw [hsccsp] at hc0
        rcases List.mem_append.mp hc0 with hold | hnew
        · exact hvn2.1.inv2.emitsc c hold x hx y hy
        · rcases List.mem_singleton.mp hnew with rfl
          exact reaches_trans (hRav (idxD s1 x) x hx (le_refl _)) (hRva y hy)
      · intro k x hx w hw
        rw [hsccsp] at hx ⊢
        by_cases hk : k ≤ s1.sccs.length
        · rw [List.take_append_of_le_length hk] at hx ⊢
          exact hvn2.1.inv2.emitclosed k x hx w hw
        · have hk2 : (s1.sccs ++ [pre ++ [v]]).length ≤ k := by
            rw [List.length_append, List.length_singleton]
            omega
          rw [List.take_of_length_le hk2] at hx ⊢
          rw [List.flatten_append] at hx ⊢
          rcases List.mem_append.mp hx with hxo | hxn
          · have hxo' : x ∈ (s1.sccs.take s1.sccs.length).flatten := by
              rw [List.take_length]
              exact hxo
            have hnb := hvn2.1.inv2.emitclosed s1.sccs.length x hxo' w hw
            rw [List.take_length] at hnb
            exact List.mem_append_left _ hnb
          · have hxC : x ∈ pre ++ [v] := by simpa using hxn
            rcases hCclosed x hxC w hw with hws | hwC
            · exact List.mem_append_left _ hws
            · refine List.mem_append_right _ ?_
              simpa using hwC
      · intro c hc0
        rw [hsccsp] at hc0
        rcases List.mem_append.mp hc0 with hold | hnew
        · exact hvn2.1.inv2.emitne c hold
        · rcases List.mem_singleton.mp hnew with rfl
          simp
    refine ⟨hr2, Or.inr ⟨hstkp, by rw [hlowp]; exact hlow1⟩,
      [], by simp [hstkp], ?_, ?_, ?_, ?_, ?_, ?_⟩ <;>
      exact fun u hu => absurd hu (List.not_mem_nil u)
  · rw [if_neg hcond]
    have hvs1 : v ∈ s1.stack := by
      rw [hstk1]
      exact List.mem_append_right _ (List.mem_cons_self _ _)
    have hcond' : s1.low v ≠ s.n := by
      rw [← hidxD1]
      exact hcond
    refine ⟨hvn2.1.inv2, Or.inl hvs1, pre ++ [v], by rw [hstk1]; simp,
      ?_, ?_, ?_, ?_, ?_, ?_⟩
    · intro u hu
      rcases List.mem_append.mp hu with hup | huv
      · exact ha u hup
      · rcases List.mem_singleton.mp huv with rfl
        exact reaches_refl hv
    · intro u hu w hw
      rcases List.mem_append.mp hu with hup | huv
      · exact hb u hup w hw
      · rcases List.mem_singleton.mp huv with rfl
        exact (hvn2.2 w hw).1
    · intro u hu
      rcases List.mem_append.mp hu with hup | huv
      · exact hcl u hup
      · rcases List.mem_singleton.mp huv with rfl
        exact le_refl _
    · intro u hu
      rcases List.mem_append.mp hu with hup | huv
      · exact hd u hup
      · rcases List.mem_singleton.mp huv with rfl
        rw [hidxD1]
        exact Nat.lt_of_le_of_ne hlow1le hcond'
    · intro u hu w hw hws1
      rcases List.mem_append.mp hu with hup | huv
      · exact he u hup w hw hws1
      · rcases List.mem_singleton.mp huv with rfl
        exact (hvn2.2 w hw).2 hws1
    · intro u hu
      rcases List.mem_append.mp hu with hup | huv
      · obtain ⟨i, hi, hgei⟩ := hf u hup
        rw [pushNode_n] at hgei
        exact ⟨i, hi, by omega⟩
      · rcases List.mem_singleton.mp huv with rfl
        exact ⟨s.n, hidxv1, le_refl _⟩

/-- `strongconnect` and its neighbor loop meet the reachability contracts at
every fuel. -/
lemma tarjan_contracts2 : ∀ fuel : Nat, SCstmt2 fuel ∧ VNstmt2 fuel := by
  intro fuel
  induction fuel with
  | zero => exact ⟨SC_zero2, VN_step2 0 SC_zero2⟩
  | succ f ih =>
    have hsc := SC_step2 f ih.2
    exact ⟨hsc, VN_step2 (f + 1) hsc⟩

lemma tarjan_loop2 (g : Graph) (hc : ClosedGraph g) :
    ∀ (ks : List String) (s : TjState), (∀ k ∈ ks, k ∈ keysOf g) → TjInv g s →
      TjReach g s → s.stack = [] →
      TjReach g (ks.foldl (fun s v =>
        if (s.idx v).isNone then strongconnect g (keysOf g).length v s else s) s) := by
  intro ks
  induction ks with
  | nil =>
    intro s _ _ hr _
    simpa using hr
  | cons k ks' ih =>
    intro s hks hinv hr hstk
    simp only [List.foldl_cons]
    by_cases hidx : (s.idx k).isNone
    · rw [if_pos hidx]
      have hout := (tarjan_contracts (keysOf g).length).1 g k s hc hinv
        (hks k (List.mem_cons_self _ _)) (Option.isNone_iff_eq_none.mp hidx)
        (unidx_le_keys g s)
      have hout2 := (tarjan_contracts2 (keysOf g).length).1 g k s hc hinv hr
        (hks k (List.mem_cons_self _ _)) (Option.isNone_iff_eq_none.mp hidx)
        (unidx_le_keys g s)
      exact ih (strongconnect g (keysOf g).length k s)
        (fun x hx => hks x (List.mem_cons_of_mem _ hx)) hout.inv hout2.inv2
        (hout.emptystk hstk)
    · rw [if_neg hidx]
      exact ih s (fun x hx => hks x (List.mem_cons_of_mem _ hx)) hinv hr hstk

/-- The partition facts of the Tarjan pass (helper form of the computation in
the partition theorem above). -/
lemma tarjan_partition_facts (g : Graph) (hc : ClosedGraph g) :
    (tarjanSCC g).flatten.Nodup ∧
    (∀ m, m ∈ (tarjanSCC g).flatten ↔ m ∈ keysOf g) := by
  have hloop := tarjan_loop g hc (keysOf g) initTjState (fun k hk => hk)
    (initTjState_inv g) rfl
  have hTS : (tarjanSCC g).flatten = sccNodes ((keysOf g).foldl (fun s v =>
      if (s.idx v).isNone then strongconnect g (keysOf g).length v s else s)
      initTjState) := rfl
  refine ⟨?_, ?_⟩
  · rw [hTS]
    exact hloop.1.sccNodup
  · intro m
    rw [hTS]
    constructor
    · intro h
      exact hloop.1.idxKeys m ((hloop.1.idxIff m).mpr (Or.inr h))
    · intro h
      rcases (hloop.1.idxIff m).mp (hloop.2.2.2 m h) with hstk | hscc
      · rw [hloop.2.1] at hstk
        exact absurd hstk (List.not_mem_nil m)
      · exact hscc

/-- The reachability facts of the Tarjan pass: components are nonempty,
strongly connected, and every prefix of the component list is closed under
graph edges. -/
lemma tarjan_reach_facts (g : Graph) (hc : ClosedGraph g) :
    (∀ c ∈ tarjanSCC g, c ≠ []) ∧
    (∀ c ∈ tarjanSCC g, ∀ x ∈ c, ∀ y ∈ c, Reaches g x y) ∧
    (∀ k, ∀ x ∈ ((tarjanSCC g).take k).flatten, ∀ w ∈ neighbors g x,
      w ∈ ((tarjanSCC g).take k).flatten) := by
  have hr := tarjan_loop2 g hc (keysOf g) initTjState (fun k hk => hk)
    (initTjState_inv g) (initTjState_reach g) rfl
  exact ⟨hr.emitne, hr.emitsc, hr.emitclosed⟩

/-- In a duplicate-free flattening, the block containing `y` lies in every
`take`-prefix whose flattening contains `y`. -/
lemma flatten_take_mem {α : Type} :
    ∀ {L : List (List α)} {k : Nat} {c : List α} {y : α},
      L.flatten.Nodup → c ∈ L → y ∈ c → y ∈ (L.take k).flatten →
      c ∈ L.take k := by
  intro L
  induction L with
  | nil =>
    intro k c y _ hcL
    exact absurd hcL (List.not_mem_nil c)
  | cons d L' ih =>
    intro k c y hnd hcL hy hyk
    match k with
    | 0 => exact absurd hyk (by simp)
    | k' + 1 =>
      rw [List.take_succ_cons] at hyk ⊢
      rw [List.flatten_cons] at hyk
      rcases List.mem_cons.mp hcL with rfl | hcL'
      · exact List.mem_cons_self _ _
      · have hyL' : y ∈ L'.flatten := List.mem_flatten.mpr ⟨c, hcL', hy⟩
        have hynd : y ∉ d := by
          intro hyd
          rw [List.flatten_cons] at hnd
          exact List.disjoint_of_nodup_append hnd hyd hyL'
        have hyk' : y ∈ (L'.take k').flatten := by
          rcases List.mem_append.mp hyk with h | h
          · exact absurd h hynd
          · exact h
        have hnd' : L'.flatten.Nodup := by
          rw [List.flatten_cons] at hnd
          exact (List.nodup_append.mp hnd).2.1
        exact List.mem_cons_of_mem _ (ih hnd' hcL' hy hyk')

/-- Two members of a list that lie in exactly the same `take`-prefixes are
equal. -/
lemma take_mem_ext {α : Type} :
    ∀ {l : List α} {a b : α}, a ∈ l → (∀ k, a ∈ l.take k ↔ b ∈ l.take k) →
      a = b := by
  intro l
  induction l with
  | nil =>
    intro a b ha
    exact absurd ha (List.not_mem_nil a)
  | cons c l' ih =>
    intro a b ha h
    by_cases hac : a = c
    · have hb1 : b ∈ (c :: l').take 1 := (h 1).mp (by simp [hac])
      rw [List.take_succ_cons, List.take_zero] at hb1
      rcases List.mem_singleton.mp hb1 with rfl
      exact hac
    · have hbc : b ≠ c := by
        intro hbc
        have ha1 : a ∈ (c :: l').take 1 := (h 1).mpr (by simp [hbc])
        rw [List.take_succ_cons, List.take_zero] at ha1
        exact hac (List.mem_singleton.mp ha1)
      have ha' : a ∈ l' := by
        rcases List.mem_cons.mp ha with h0 | h0
        · exact absurd h0 hac
        · exact h0
      refine ih ha' ?_
      intro k
      have hk := h (k + 1)
      rw [List.take_succ_cons] at hk
      constructor
      · intro hak
        rcases List.mem_cons.mp (hk.mp (List.mem_cons_of_mem _ hak)) with h0 | h0
        · exact absurd h0 hbc
        · exact h0
      · intro hbk
        rcases List.mem_cons.mp (hk.mpr (List.mem_cons_of_mem _ hbk)) with h0 | h0
        · exact absurd h0 hac
        · exact h0

/-- Completeness of the Tarjan pass: mutually reachable modules are never
split across two components. -/
lemma tarjan_same_component (g : Graph) (hc : ClosedGraph g) :
    ∀ c1 ∈ tarjanSCC g, ∀ c2 ∈ tarjanSCC g, ∀ x ∈ c1, ∀ y ∈ c2,
      Reaches g x y → Reaches g y x → c1 = c2 := by
  intro c1 hc1 c2 hc2 x hx y hy hxy hyx
  have hnd := (tarjan_partition_facts g hc).1
  have hclosed := (tarjan_reach_facts g hc).2.2
  have hstep : ∀ (a b : String) (cb : List String),
      cb ∈ tarjanSCC g → b ∈ cb → Reaches g a b →
      ∀ k, a ∈ ((tarjanSCC g).take k).flatten → cb ∈ (tarjanSCC g).take k := by
    intro a b cb hcb hbb hab k hain
    obtain ⟨p, hpw, hph, hpl⟩ := hab
    have hall : ∀ z ∈ p, z ∈ ((tarjanSCC g).take k).flatten := by
      refine isWalkIn_closure ?_ hpw ?_
      · intro u hu w hw _
        exact hclosed k u hu w hw
      · intro h0 hh0
        rw [hph] at hh0
        rw [← Option.some_inj.mp hh0]
        exact hain
    exact flatten_take_mem hnd hcb hbb (hall b (getLast?_mem hpl))
  refine take_mem_ext hc1 ?_
  intro k
  constructor
  · intro h
    exact hstep x y c2 hc2 hy hxy k (List.mem_flatten.mpr ⟨c1, h, hx⟩)
  · intro h
    exact hstep y x c1 hc1 hx hyx k (List.mem_flatten.mpr ⟨c2, h, hy⟩)

/-- Each component of the Tarjan pass is exactly the mutual-reachability
class of any of its members. -/
lemma tarjan_component_char (g : Graph) (hc : ClosedGraph g) :
    ∀ c ∈ tarjanSCC g, ∀ v ∈ c, ∀ x,
      x ∈ c ↔ (x ∈ keysOf g ∧ Reaches g v x ∧ Reaches g x v) := by
  intro c hcm v hv x
  constructor
  · intro hx
    refine ⟨?_, ?_, ?_⟩
    · exact ((tarjan_partition_facts g hc).2 x).mp
        (List.mem_flatten.mpr ⟨c, hcm, hx⟩)
    · exact (tarjan_reach_facts g hc).2.1 c hcm v hv x hx
    · exact (tarjan_reach_facts g hc).2.1 c hcm x hx v hv
  · rintro ⟨hxk, hvx, hxv⟩
    obtain ⟨c', hc'm, hxc'⟩ := List.mem_flatten.mp
      (((tarjan_partition_facts g hc).2 x).mpr hxk)
    have hcc : c = c' := tarjan_same_component g hc c hcm c' hc'm v hv x hxc' hvx hxv
    rw [hcc]
    exact hxc'

/-! ## Re-running the pipeline (idempotence up to set-enumeration order)

Each stage is a pure function of its input, but a Python `set` iterates in a
runtime-dependent order (string hashes are randomized per process), so two
runs on an unchanged source tree may enumerate the dependency sets
differently.  The enumeration is an explicit part of the embedded graph, so
"two runs" are two graphs with the same keys whose dependency lists are
permutations of each other. -/

/-- C9 counterexample: two runs that enumerate the same dependency set
`{database, store}` of `api` in different orders produce the same graph as a
mapping of sets, but architecture-violation lists that differ as lists (the
two skip-layer violations swap), so the violation list is not run-invariant. -/
theorem violation_list_order_dependent :
    (["database", "store"] : List String).Perm ["store", "database"] ∧
    keysOf [("api", ["database", "store"])] =
      keysOf [("api", ["store", "database"])] ∧
    validate
        [⟨"api", 4, ["api"]⟩, ⟨"database", 1, ["database"]⟩,
         ⟨"store", 1, ["store"]⟩]
        [("api", ["database", "store"])]
        [("api", "api"), ("database", "database"), ("store", "store")] ≠
      validate
        [⟨"api", 4, ["api"]⟩, ⟨"database", 1, ["database"]⟩,
         ⟨"store", 1, ["store"]⟩]
        [("api", ["store", "database"])]
        [("api", "api"), ("database", "database"), ("store", "store")] :=
  ⟨List.Perm.swap _ _ _, rfl, by decide⟩

/-- Two graphs that agree as mappings of sets: same keys in the same order,
dependency lists permutations of each other. -/
def SameGraphSets (g1 g2 : Graph) : Prop :=
  List.Forall₂ (fun p q => p.1 = q.1 ∧ p.2.Perm q.2) g1 g2

lemma sameGraphSets_symm {g1 g2 : Graph} (h : SameGraphSets g1 g2) :
    SameGraphSets g2 g1 := by
  induction h with
  | nil => exact List.Forall₂.nil
  | cons hpq _ ih => exact List.Forall₂.cons ⟨hpq.1.symm, hpq.2.symm⟩ ih

lemma sameGraphSets_keys {g1 g2 : Graph} (h : SameGraphSets g1 g2) :
    keysOf g1 = keysOf g2 := by
  induction h with
  | nil => rfl
  | cons hpq _ ih =>
    unfold keysOf at ih ⊢
    simp only [List.map_cons]
    rw [hpq.1, ih]

lemma sameGraphSets_neighbors {g1 g2 : Graph} (h : SameGraphSets g1 g2) :
    ∀ v w, w ∈ neighbors g1 v ↔ w ∈ neighbors g2 v := by
  intro v w
  induction h with
  | nil => simp [neighbors]
  | cons hpq hrest ih =>
    rename_i p q t1 t2
    unfold neighbors
    by_cases hp : p.1 = v
    · rw [List.find?_cons_of_pos _ (by simp [hp]),
        List.find?_cons_of_pos _ (by simp [hpq.1 ▸ hp])]
      exact hpq.2.mem_iff
    · rw [List.find?_cons_of_neg _ (by simp [hp]),
        List.find?_cons_of_neg _ (by simp [hpq.1 ▸ hp])]
      exact ih

lemma sameGraphSets_walk {g1 g2 : Graph} (h : SameGraphSets g1 g2) :
    ∀ p, isWalkIn g1 (keysOf g1) p = true ↔ isWalkIn g2 (keysOf g2) p = true := by
  have hk := sameGraphSets_keys h
  have hn := sameGraphSets_neighbors h
  intro p
  induction p with
  | nil => simp [isWalkIn]
  | cons v rest ih =>
    match rest, ih with
    | [], _ => simp [isWalkIn, hk]
    | w :: rest', ih =>
      rw [isWalkIn, isWalkIn]
      simp only [Bool.and_eq_true, decide_eq_true_eq]
      constructor
      · rintro ⟨⟨h1, h2⟩, h3⟩
        exact ⟨⟨hk ▸ h1, (hn v w).mp h2⟩, ih.mp h3⟩
      · rintro ⟨⟨h1, h2⟩, h3⟩
        exact ⟨⟨hk.symm ▸ h1, (hn v w).mpr h2⟩, ih.mpr h3⟩

lemma sameGraphSets_reaches {g1 g2 : Graph} (h : SameGraphSets g1 g2) :
    ∀ a b, Reaches g1 a b ↔ Reaches g2 a b := by
  intro a b
  constructor
  · rintro ⟨p, hw, hh, hl⟩
    exact ⟨p, (sameGraphSets_walk h p).mp hw, hh, hl⟩
  · rintro ⟨p, hw, hh, hl⟩
    exact ⟨p, (sameGraphSets_walk h p).mpr hw, hh, hl⟩

lemma sameGraphSets_mem_right {g1 g2 : Graph} (h : SameGraphSets g1 g2) :
    ∀ p ∈ g2, ∃ q ∈ g1, q.1 = p.1 ∧ q.2.Perm p.2 := by
  induction h with
  | nil =>
    intro p hp
    exact absurd hp (List.not_mem_nil p)
  | cons hpq hrest ih =>
    rename_i a b t1 t2
    intro p hp
    rcases List.mem_cons.mp hp with rfl | hp'
    · exact ⟨a, List.mem_cons_self _ _, hpq.1, hpq.2⟩
    · obtain ⟨q, hq, hq1, hq2⟩ := ih p hp'
      exact ⟨q, List.mem_cons_of_mem _ hq, hq1, hq2⟩

lemma sameGraphSets_closed {g1 g2 : Graph} (hc : ClosedGraph g1)
    (h : SameGraphSets g1 g2) : ClosedGraph g2 := by
  intro p hp w hw
  obtain ⟨q, hq, hq1, hq2⟩ := sameGraphSets_mem_right h p hp
  rw [← sameGraphSets_keys h]
  exact hc q hq w (hq2.mem_iff.mpr hw)

/-- The components of the Tarjan pass are determined by the graph as a
mapping of sets: a run on any re-enumeration of the dependency sets yields
the same components up to order. -/
lemma tarjan_run_invariant {g1 g2 : Graph} (hc1 : ClosedGraph g1)
    (hsg : SameGraphSets g1 g2) :
    ∀ c ∈ tarjanSCC g1, ∃ c' ∈ tarjanSCC g2, c.Perm c' := by
  have hc2 : ClosedGraph g2 := sameGraphSets_closed hc1 hsg
  have hk := sameGraphSets_keys hsg
  intro c hcm
  have hne : c ≠ [] := (tarjan_reach_facts g1 hc1).1 c hcm
  obtain ⟨v, hv⟩ := List.exists_mem_of_ne_nil c hne
  have hvk : v ∈ keysOf g1 :=
    ((tarjan_component_char g1 hc1 c hcm v hv v).mp hv).1
  have hvk2 : v ∈ keysOf g2 := hk ▸ hvk
  obtain ⟨c', hc'm, hvc'⟩ := List.mem_flatten.mp
    (((tarjan_partition_facts g2 hc2).2 v).mpr hvk2)
  refine ⟨c', hc'm, ?_⟩
  have hnd1 := (tarjan_partition_facts g1 hc1).1
  have hnd2 := (tarjan_partition_facts g2 hc2).1
  rw [List.perm_ext_iff_of_nodup ((List.nodup_flatten.mp hnd1).1 c hcm)
    ((List.nodup_flatten.mp hnd2).1 c' hc'm)]
  intro x
  rw [tarjan_component_char g1 hc1 c hcm v hv x,
    tarjan_component_char g2 hc2 c' hc'm v hvc' x, hk,
    sameGraphSets_reaches hsg v x, sameGraphSets_reaches hsg x v]

lemma flatMap_perm_of_sameGraph {α : Type} (F : String → List String → List α)
    (hF : ∀ src d1 d2, d1.Perm d2 → (F src d1).Perm (F src d2)) :
    ∀ {g1 g2 : Graph}, SameGraphSets g1 g2 →
      (g1.flatMap (fun p => F p.1 p.2)).Perm (g2.flatMap (fun p => F p.1 p.2)) := by
  intro g1 g2 h
  induction h with
  | nil => exact List.Perm.refl _
  | cons hpq _ ih =>
    simp only [List.flatMap_cons]
    exact List.Perm.append (hpq.1 ▸ hF _ _ _ hpq.2) ih

lemma skipViolationsOf_perm (m2l : List (String × LayerInfo)) (layers : List Layer)
    (src : String) {d1 d2 : List String} (h : d1.Perm d2) :
    (skipViolationsOf m2l layers src d1).Perm (skipViolationsOf m2l layers src d2) := by
  unfold skipViolationsOf
  cases lookupLayer m2l src with
  | none => exact List.Perm.refl _
  | some ml => exact List.Perm.filterMap _ h

lemma reverseViolationsOf_perm (m2l : List (String × LayerInfo))
    (src : String) {d1 d2 : List String} (h : d1.Perm d2) :
    (reverseViolationsOf m2l src d1).Perm (reverseViolationsOf m2l src d2) := by
  unfold reverseViolationsOf
  cases lookupLayer m2l src with
  | none => exact List.Perm.refl _
  | some ml => exact List.Perm.filterMap _ h

/-- C9 (amended): the builder's graph is the same mapping of sets however the
runs enumerate each module's files; two runs whose graphs agree as mappings
of sets produce the same unordered set of cycle groups — every Tarjan
component of one run is, up to member order, a component of the other — and
architecture-violation lists that are permutations of each other (identical
as multisets, though — per the counterexample — not necessarily as ordered
lists). -/
theorem pipeline_rerun_up_to_set_order :
    (∀ (mods : List String) (files1 files2 : String → List PyFile),
      (∀ m, (files1 m).Perm (files2 m)) →
      SameGraphSets (buildGraph mods files1) (buildGraph mods files2)) ∧
    (∀ (cfg : List Layer) (mods : List (String × String)) (g1 g2 : Graph),
      SameGraphSets g1 g2 →
      (validate cfg g1 mods).Perm (validate cfg g2 mods)) ∧
    (∀ (g1 g2 : Graph), ClosedGraph g1 → SameGraphSets g1 g2 →
      (∀ c ∈ tarjanSCC g1, ∃ c' ∈ tarjanSCC g2, c.Perm c') ∧
      (∀ c' ∈ tarjanSCC g2, ∃ c ∈ tarjanSCC g1, c'.Perm c)) := by
  refine ⟨?_, ?_, ?_⟩
  · intro mods files1 files2 hfiles
    unfold SameGraphSets buildGraph
    have haux : ∀ ms : List String,
        List.Forall₂ (fun p q => p.1 = q.1 ∧ p.2.Perm q.2)
          (ms.map (fun m => (m, extractModuleDependencies mods m (files1 m))))
          (ms.map (fun m => (m, extractModuleDependencies mods m (files2 m)))) := by
      intro ms
      induction ms with
      | nil => exact List.Forall₂.nil
      | cons m ms' ih =>
        simp only [List.map_cons]
        refine List.Forall₂.cons ⟨rfl, ?_⟩ ih
        rw [List.perm_ext_iff_of_nodup (extract_nodup _ _ _) (extract_nodup _ _ _)]
        intro d
        rw [extract_mem, extract_mem]
        constructor
        · rintro ⟨⟨f, hf, hst⟩, hrest⟩
          exact ⟨⟨f, (hfiles m).mem_iff.mp hf, hst⟩, hrest⟩
        · rintro ⟨⟨f, hf, hst⟩, hrest⟩
          exact ⟨⟨f, (hfiles m).mem_iff.mpr hf, hst⟩, hrest⟩
    exact haux mods
  · intro cfg mods g1 g2 hsg
    unfold validate
    by_cases hempty : (sortLayersDesc cfg).isEmpty
    · rw [if_pos hempty, if_pos hempty]
    · rw [if_neg hempty, if_neg hempty]
      by_cases hm2l : (mapModulesToLayers (sortLayersDesc cfg) mods).isEmpty
      · rw [if_pos hm2l, if_pos hm2l]
      · rw [if_neg hm2l, if_neg hm2l]
        refine List.Perm.append ?_ ?_
        · exact flatMap_perm_of_sameGraph _
            (fun src d1 d2 h => skipViolationsOf_perm _ _ src h) hsg
        · exact flatMap_perm_of_sameGraph _
            (fun src d1 d2 h => reverseViolationsOf_perm _ src h) hsg
  · intro g1 g2 hc1 hsg
    exact ⟨tarjan_run_invariant hc1 hsg,
      tarjan_run_invariant (sameGraphSets_closed hc1 hsg) (sameGraphSets_symm hsg)⟩

/-- Witness: the two runs of the counterexample produce violation lists that
are permutations of each other, and two runs that enumerate the dependency
set `{b, c}` of `a` in opposite orders produce the same components up to
member order. -/
theorem pipeline_rerun_up_to_set_order_witness :
    (validate
        [⟨"api", 4, ["api"]⟩, ⟨"database", 1, ["database"]⟩,
         ⟨"store", 1, ["store"]⟩]
        [("api", ["database", "store"])]
        [("api", "api"), ("database", "database"), ("store", "store")]).Perm
      (validate
        [⟨"api", 4, ["api"]⟩, ⟨"database", 1, ["database"]⟩,
         ⟨"store", 1, ["store"]⟩]
        [("api", ["store", "database"])]
        [("api", "api"), ("database", "database"), ("store", "store")]) ∧
    (∀ c ∈ tarjanSCC [("a", ["b", "c"]), ("b", ["a"]), ("c", [])],
      ∃ c' ∈ tarjanSCC [("a", ["c", "b"]), ("b", ["a"]), ("c", [])], c.Perm c') :=
  ⟨pipeline_rerun_up_to_set_order.2.1
    [⟨"api", 4, ["api"]⟩, ⟨"database", 1, ["database"]⟩, ⟨"store", 1, ["store"]⟩]
    [("api", "api"), ("database", "database"), ("store", "store")]
    [("api", ["database", "store"])] [("api", ["store", "database"])]
    (List.Forall₂.cons ⟨rfl, List.Perm.swap _ _ _⟩ List.Forall₂.nil),
   (pipeline_rerun_up_to_set_order.2.2
     [("a", ["b", "c"]), ("b", ["a"]), ("c", [])]
     [("a", ["c", "b"]), ("b", ["a"]), ("c", [])]
     (by decide)
     (List.Forall₂.cons ⟨rfl, List.Perm.swap _ _ _⟩
       (List.Forall₂.cons ⟨rfl, List.Perm.refl _⟩
         (List.Forall₂.cons ⟨rfl, List.Perm.refl _⟩ List.Forall₂.nil)))).1⟩

end SkillsWorkshop
